import Mathlib

/-!
# Verification of the reagent concurrent control plane

Shallow embedding of the core components of the reagent repository
(context store, agent loop, streaming step, tool truncation, event wire,
rolling buffer, provider retry, tool registry) together with proofs of
the specification claims about them.

Python strings are modelled as Lean `String` (or `List Char` where byte
and line level reasoning is needed), Python dicts with integer keys as
insertion-ordered association lists, and the JSONL log as a list of
parsed log lines.
-/

set_option maxHeartbeats 1000000
set_option maxRecDepth 100000

namespace Reagent

/-! ## Message model (src/reagent/llm/message.py) -/

/-- A content part of a conversation message (tagged union from message.py). -/
inductive ContentPart where
  | text (t : String)
  | toolCall (id : String) (name : String) (arguments : String)
  | toolResult (tool_call_id : String) (content : String) (is_error : Bool)
  | thinking (thinking : String) (signature : String)
  deriving DecidableEq, Repr

/-- A conversation message: a role and a list of content parts. -/
structure Message where
  role : String
  parts : List ContentPart
  deriving DecidableEq, Repr

/-- Message.system constructor. -/
def Message.system (t : String) : Message :=
  ⟨"system", [.text t]⟩

/-- Message.user constructor. -/
def Message.user (t : String) : Message :=
  ⟨"user", [.text t]⟩

/-- Message.tool_result constructor. -/
def Message.toolResultMsg (tool_call_id content : String) (is_error : Bool) : Message :=
  ⟨"tool", [.toolResult tool_call_id content is_error]⟩

/-- The text parts of a message, in order. -/
def Message.textParts (m : Message) : List String :=
  m.parts.filterMap fun p =>
    match p with
    | .text t => some t
    | _ => none

/-- The tool-call parts of a message, in order (id, name, arguments).
Corresponds to Message.tool_calls in message.py, with the JSON parse of
the argument string abstracted to the raw string. -/
def Message.toolCallParts (m : Message) : List (String × String × String) :=
  m.parts.filterMap fun p =>
    match p with
    | .toolCall id name args => some (id, name, args)
    | _ => none

/-- The tool-result parts of a message, in order. -/
def Message.toolResultParts (m : Message) : List (String × String × Bool) :=
  m.parts.filterMap fun p =>
    match p with
    | .toolResult id c e => some (id, c, e)
    | _ => none

/-- The thinking parts of a message, in order (thinking, signature). -/
def Message.thinkingParts (m : Message) : List (String × String) :=
  m.parts.filterMap fun p =>
    match p with
    | .thinking t s => some (t, s)
    | _ => none

/-! ## JSONL serialization (context/__init__.py: _message_to_dict, _dict_to_message) -/

/-- The dict produced by _message_to_dict, with absent keys as none / []. -/
structure MsgDict where
  role : String
  content : Option String
  tool_calls : List (String × String × String)
  tool_call_id : Option String
  is_error : Option Bool
  thinking : Option String
  thinking_signature : Option String
  deriving DecidableEq, Repr

/-- Python truthiness of an optional string (None and empty string are falsy). -/
def optTruthy : Option String → Bool
  | none => false
  | some s => s ≠ ""

/-- First nonempty signature among thinking parts, as in _message_to_dict. -/
def firstSignature : List (String × String) → String
  | [] => ""
  | (_, sig) :: rest => if sig ≠ "" then sig else firstSignature rest

/-- Serialize a Message to a dict for JSONL storage (_message_to_dict). -/
def messageToDict (m : Message) : MsgDict :=
  let texts := m.textParts
  let tcs := m.toolCallParts
  let trs := m.toolResultParts
  let thinks := m.thinkingParts
  let contentFromText : Option String :=
    if texts ≠ [] then some (String.join texts) else none
  let d0 : MsgDict :=
    { role := m.role
      content := contentFromText
      tool_calls := tcs
      tool_call_id := none
      is_error := none
      thinking := none
      thinking_signature := none }
  let d1 : MsgDict :=
    match trs with
    | [] => d0
    | (id, c, e) :: _ => { d0 with tool_call_id := some id, content := some c, is_error := some e }
  match thinks with
  | [] => d1
  | _ =>
    let joined := String.join (thinks.map Prod.fst)
    let sig := firstSignature thinks
    if sig ≠ "" then
      { d1 with thinking := some joined, thinking_signature := some sig }
    else
      { d1 with thinking := some joined }

/-- Deserialize a dict from JSONL to a Message (_dict_to_message). -/
def dictToMessage (d : MsgDict) : Message :=
  if d.role = "tool" then
    ⟨d.role, [.toolResult (d.tool_call_id.getD "") (d.content.getD "") (d.is_error.getD false)]⟩
  else
    let thinkParts : List ContentPart :=
      if optTruthy d.thinking then
        [.thinking (d.thinking.getD "") (d.thinking_signature.getD "")]
      else []
    let textPartsL : List ContentPart :=
      if optTruthy d.content then [.text (d.content.getD "")] else []
    let tcPartsL : List ContentPart :=
      d.tool_calls.map fun t => .toolCall t.1 t.2.1 t.2.2
    ⟨d.role, thinkParts ++ textPartsL ++ tcPartsL⟩

/-- A message is serialization-stable when deserializing its serialized
form gives it back. All messages built via the constructors used by the
agent (nonempty-text system/user messages, tool results, assistant
messages) are stable. -/
def MsgStable (m : Message) : Prop :=
  dictToMessage (messageToDict m) = m

instance (m : Message) : Decidable (MsgStable m) := by
  unfold MsgStable; infer_instance

/-! ## Context store (src/reagent/context/__init__.py)

The JSONL file is modelled as a list of parsed lines: a serialized
message dict, a checkpoint marker, a usage marker, or a malformed line
(one that fails JSON parsing and is skipped on restore). -/

/-- One line of the JSONL log. -/
inductive LogLine where
  | msg (d : MsgDict)
  | checkpoint (id : Nat)
  | usage (token_count : Nat)
  | malformed
  deriving DecidableEq, Repr

/-- Insertion-ordered map update, with Python dict assignment semantics:
an existing key is updated in place, a new key is appended. -/
def dictInsert : List (Nat × Nat) → Nat → Nat → List (Nat × Nat)
  | [], k, v => [(k, v)]
  | q :: rest, k, v =>
    if q.1 = k then (q.1, v) :: rest else q :: dictInsert rest k v

/-- Lookup in an insertion-ordered map. -/
def dictGet : List (Nat × Nat) → Nat → Option Nat
  | [], _ => none
  | q :: rest, k => if q.1 = k then some q.2 else dictGet rest k

/-- Insert into a list sorted by key (used to model Python sorted(dict.items())). -/
def insertByKey (p : Nat × Nat) : List (Nat × Nat) → List (Nat × Nat)
  | [] => [p]
  | q :: rest => if p.1 ≤ q.1 then p :: q :: rest else q :: insertByKey p rest

/-- Sort an association list by key (Python sorted over dict items; keys unique). -/
def sortByKey (l : List (Nat × Nat)) : List (Nat × Nat) :=
  l.foldr insertByKey []

/-- In-memory context state plus the content of the on-disk JSONL log. -/
structure Context where
  messages : List Message
  checkpoints : List (Nat × Nat)
  checkpointCounter : Nat
  tokenCount : Nat
  file : List LogLine
  deriving DecidableEq, Repr

/-- A context with no messages, no checkpoints, and an empty log. -/
def emptyContext : Context :=
  ⟨[], [], 0, 0, []⟩

/-- Context.append: append a message to memory and persist one line. -/
def Context.append (ctx : Context) (m : Message) : Context :=
  { ctx with
      messages := ctx.messages ++ [m]
      file := ctx.file ++ [.msg (messageToDict m)] }

/-- Context.append_system. -/
def Context.appendSystem (ctx : Context) (t : String) : Context :=
  ctx.append (Message.system t)

/-- Context.checkpoint: assign the next id, record the current message
index, persist a checkpoint marker, return the id. -/
def Context.checkpointOp (ctx : Context) : Nat × Context :=
  let cid := ctx.checkpointCounter
  (cid,
    { ctx with
        checkpointCounter := cid + 1
        checkpoints := dictInsert ctx.checkpoints cid ctx.messages.length
        file := ctx.file ++ [.checkpoint cid] })

/-- The file written by _rewrite_jsonl: all messages first, then all
checkpoint markers sorted by id. -/
def rewriteFile (ctx : Context) : List LogLine :=
  ctx.messages.map (fun m => .msg (messageToDict m))
    ++ (sortByKey ctx.checkpoints).map (fun p => .checkpoint p.1)

/-- Context.rewrite: rewrite the log from current in-memory state. -/
def Context.rewriteOp (ctx : Context) : Context :=
  { ctx with file := rewriteFile ctx }

/-- Context.revert_to. The unknown-checkpoint check comes first: on error
the state (memory and log) is returned unchanged, modelling the raise
before any mutation. On success, messages are truncated to the recorded
index, later checkpoints are dropped, and the log is rewritten. -/
def Context.revertTo (ctx : Context) (checkpoint_id : Nat) :
    Except String Unit × Context :=
  match dictGet ctx.checkpoints checkpoint_id with
  | none => (.error ("Unknown checkpoint: " ++ toString checkpoint_id), ctx)
  | some idx =>
    let ctx1 : Context :=
      { ctx with
          messages := ctx.messages.take idx
          checkpoints := ctx.checkpoints.filter fun p => p.1 ≤ checkpoint_id }
    (.ok (), { ctx1 with file := rewriteFile ctx1 })

/-- Context.grow: append the assistant message, then each tool result. -/
def Context.grow (ctx : Context) (assistant : Message) (tool_results : List Message) : Context :=
  tool_results.foldl Context.append (ctx.append assistant)

/-- The in-memory state rebuilt by Context.restore. -/
structure RestoreState where
  messages : List Message
  checkpoints : List (Nat × Nat)
  checkpointCounter : Nat
  tokenCount : Nat
  deriving DecidableEq, Repr

/-- Replay of one log line (body of the restore loop): a message dict is
appended, a checkpoint marker is recorded at the current message count
and bumps the counter, a usage marker sets the token count, and a
malformed line is skipped. -/
def restoreLine (s : RestoreState) : LogLine → RestoreState
  | .malformed => s
  | .checkpoint id =>
    { s with
        checkpoints := dictInsert s.checkpoints id s.messages.length
        checkpointCounter := max s.checkpointCounter (id + 1) }
  | .usage tc => { s with tokenCount := tc }
  | .msg d => { s with messages := s.messages ++ [dictToMessage d] }

/-- Context.restore: replay a JSONL log into a fresh context. -/
def restoreLog (file : List LogLine) : RestoreState :=
  file.foldl restoreLine ⟨[], [], 0, 0⟩

/-! ### Operation scripts over a context -/

/-- One mutating context operation. -/
inductive COp where
  | append (m : Message)
  | appendSystem (t : String)
  | checkpoint
  | revertTo (id : Nat)
  | rewrite
  | grow (assistant : Message) (tool_results : List Message)
  deriving DecidableEq, Repr

/-- Run one operation; revert_to can fail. -/
def runOp (ctx : Context) : COp → Except String Context
  | .append m => .ok (ctx.append m)
  | .appendSystem t => .ok (ctx.appendSystem t)
  | .checkpoint => .ok (ctx.checkpointOp).2
  | .revertTo id =>
    match ctx.revertTo id with
    | (.ok _, c) => .ok c
    | (.error e, _) => .error e
  | .rewrite => .ok ctx.rewriteOp
  | .grow a trs => .ok (ctx.grow a trs)

/-- Run a sequence of operations, stopping at the first failure. -/
def runOps (ctx : Context) : List COp → Except String Context
  | [] => .ok ctx
  | op :: rest =>
    match runOp ctx op with
    | .ok c => runOps c rest
    | .error e => .error e

/-- Operations that only ever append to the log (no revert, no rewrite). -/
def COp.appendOnly : COp → Prop
  | .append _ => True
  | .appendSystem _ => True
  | .checkpoint => True
  | .grow _ _ => True
  | .revertTo _ => False
  | .rewrite => False

/-- All messages an operation appends are serialization-stable. -/
def COp.stable : COp → Prop
  | .append m => MsgStable m
  | .appendSystem t => MsgStable (Message.system t)
  | .checkpoint => True
  | .grow a trs => MsgStable a ∧ ∀ tr ∈ trs, MsgStable tr
  | .revertTo _ => True
  | .rewrite => True

/-! ## Agent loop (src/reagent/agent/loop.py)

The LLM/tool interaction of one iteration is abstracted by a script
indexed by the number of step() invocations so far: each invocation
either returns an assistant message with tool results and a usage count,
raises the BackToTheFuture revert signal, or raises some other
exception. The loop itself (step counting, checkpointing, D-Mail
handling, grow, stop conditions) is translated from agent_loop. -/

/-- Outcome of one step() invocation, as seen by agent_loop. -/
inductive StepScript where
  | ok (msg : Message) (tool_results : List Message) (usageInput : Nat)
  | dmail (checkpoint_id : Nat) (text : String)
  | fail (e : String)
  deriving DecidableEq, Repr

/-- Why the loop ended. raised models an exception escaping agent_loop
itself (a failed revert inside the D-Mail handler). -/
inductive LoopOutcome where
  | complete
  | maxStepsHit
  | error (e : String)
  | raised (e : String)
  deriving DecidableEq, Repr

/-- Observer callbacks fired by the loop, in order. -/
inductive LoopEv where
  | checkpointed (cid : Nat)
  | stepBegin (n : Nat)
  | dmailCb (checkpoint_id : Nat) (text : String)
  | stepDone (n : Nat)
  deriving DecidableEq, Repr

/-- Result of a loop run. -/
structure LoopRun where
  outcome : LoopOutcome
  ctx : Context
  events : List LoopEv
  deriving DecidableEq, Repr

/-- The system message injected after a D-Mail revert. -/
def dmailText (m : String) : String :=
  "[D-Mail from your future self]: " ++ m ++
    "\n\nUse this knowledge to avoid repeating the same work. Continue with the task, applying what you now know."

/-- The loop body. remaining = max_steps - step_no mirrors the while
condition step_no < max_steps; stepNo is the number of completed
iterations; k counts step() invocations (indexes the script). -/
def agentLoopGo (script : Nat → StepScript) :
    Nat → Nat → Nat → Context → List LoopEv → LoopRun
  | 0, _, _, ctx, evs => ⟨.maxStepsHit, ctx, evs⟩
  | remaining + 1, stepNo, k, ctx, evs =>
    let sn := stepNo + 1
    let cp := ctx.checkpointOp
    let evs1 := evs ++ [.checkpointed cp.1, .stepBegin sn]
    match script k with
    | .ok msg trs usageInput =>
      let ctx2 := cp.2.grow msg trs
      let ctx3 := if 0 < usageInput then { ctx2 with tokenCount := usageInput } else ctx2
      let evs2 := evs1 ++ [.stepDone sn]
      if msg.toolCallParts = [] then ⟨.complete, ctx3, evs2⟩
      else agentLoopGo script remaining sn (k + 1) ctx3 evs2
    | .dmail cpid m =>
      let evs2 := evs1 ++ [.dmailCb cpid m]
      match cp.2.revertTo cpid with
      | (.error e, c) => ⟨.raised e, c, evs2⟩
      | (.ok _, c) => agentLoopGo script remaining sn (k + 1) (c.appendSystem (dmailText m)) evs2
    | .fail e => ⟨.error e, cp.2, evs1⟩

/-- agent_loop: run up to max_steps steps from a context. -/
def agentLoop (maxSteps : Nat) (script : Nat → StepScript) (ctx : Context) : LoopRun :=
  agentLoopGo script maxSteps 0 0 ctx []

/-- Number of stepBegin callbacks in a trace (steps attempted). -/
def countStepBegins (evs : List LoopEv) : Nat :=
  evs.countP fun e =>
    match e with
    | .stepBegin _ => true
    | _ => false

/-! ## Streaming step and concurrent tool fan-out (src/reagent/llm/streaming.py)

step() dispatches the tool calls of the assistant message concurrently
via asyncio.gather and returns one tool-result message per call, in call
order. The concurrent execution is modelled by an explicit completion
order: tasks finish in an arbitrary order, each completion records the
task index with its result, and gather assembles the results by task
index. -/

/-- Body of _run_tool: dispatch one call; an exception from dispatch is
caught and becomes an error result message. -/
def runTool (dispatch : String × String × String → Except String (String × Bool))
    (tc : String × String × String) : Message :=
  match dispatch tc with
  | .ok (content, is_error) => Message.toolResultMsg tc.1 content is_error
  | .error e => Message.toolResultMsg tc.1 ("Error: " ++ e) true

/-- The tool-result messages returned by step(), in call order
(the specification of asyncio.gather: results in task order). -/
def stepToolResults (dispatch : String × String × String → Except String (String × Bool))
    (msg : Message) : List Message :=
  msg.toolCallParts.map (runTool dispatch)

/-- Scheduled execution of a task list: tasks complete in the given
order; each completion logs (task index, result). -/
def runSchedule (run : α → β) (tasks : List α) (order : List Nat) : List (Nat × β) :=
  order.filterMap fun i => (tasks.get? i).map fun t => (i, run t)

/-- gather: assemble the completion log back into task order. -/
def gatherAssemble (n : Nat) (log : List (Nat × β)) : Option (List β) :=
  (List.range n).mapM fun i => (log.find? fun p => p.1 == i).map Prod.snd

/-! ## Tool output truncation (src/reagent/tool/truncation.py)

Text is modelled as a list of characters (Unicode code points); the
UTF-8 byte count of a string is the sum of the UTF-8 sizes of its
characters, matching len(text.encode("utf-8")). -/

/-- UTF-8 byte length of a character list. -/
def utf8Len (cs : List Char) : Nat :=
  (cs.map Char.utf8Size).sum

/-- text.split("\n"): split on every newline; always nonempty (the
recursive result is never empty, so headI/tail never hit the default). -/
def splitNl : List Char → List (List Char)
  | [] => [[]]
  | c :: cs =>
    if c = '\n' then [] :: splitNl cs
    else (c :: (splitNl cs).headI) :: (splitNl cs).tail

/-- "\n".join(lines). -/
def joinNl : List (List Char) → List Char
  | [] => []
  | [l] => l
  | l :: ls => l ++ '\n' :: joinNl ls

/-- bytes[:n].decode("utf-8", errors="ignore") on valid UTF-8: the
longest prefix whose encoding fits in n bytes (a trailing cut-off
character is dropped). -/
def utf8Take (n : Nat) : List Char → List Char
  | [] => []
  | c :: cs => if c.utf8Size ≤ n then c :: utf8Take (n - c.utf8Size) cs else []

/-- lines[-n:] (note Python: lines[-0:] is the whole list). -/
def pyTail (n : Nat) (l : List α) : List α :=
  if n = 0 then l else l.drop (l.length - n)

/-- str(n) as characters. -/
def natChars (n : Nat) : List Char :=
  (Nat.repr n).data

/-- ", ".join(parts). -/
def joinCommaC : List (List Char) → List Char
  | [] => []
  | [l] => l
  | l :: ls => l ++ (", ").data ++ joinCommaC ls

/-- MAX_LINES default. -/
def MAX_LINES : Nat := 2000

/-- MAX_BYTES default (50 KiB). -/
def MAX_BYTES : Nat := 50 * 1024

/-- The first line of the truncation notice built by truncate_output. -/
def noticeBase (skipped skippedBytes totalLines byteCount : Nat) : List Char :=
  ("[Output truncated: ").data
    ++ joinCommaC
      ((if 0 < skipped then [natChars skipped ++ (" lines skipped").data] else [])
        ++ (if 0 < skippedBytes then [natChars skippedBytes ++ (" bytes skipped").data] else []))
    ++ (". Total: ").data ++ natChars totalLines
    ++ (" lines, ").data ++ natChars byteCount ++ (" bytes]").data

/-- The truncation notice built by truncate_output. savePath is the temp
file path returned by _save_to_temp when save_full is set (none models
save_full=False). -/
def truncationNotice (skipped skippedBytes totalLines byteCount : Nat)
    (savePath : Option (List Char)) : List Char :=
  match savePath with
  | some p => noticeBase skipped skippedBytes totalLines byteCount
      ++ ('\n' :: (("[Full output saved to: ").data ++ p ++ [']']))
  | none => noticeBase skipped skippedBytes totalLines byteCount

/-- The lines kept by truncate_output: the tail slice lines[-max_lines:]
when the line count exceeds max_lines, else all lines. -/
def keptLines (text : List Char) (max_lines : Nat) : List (List Char) :=
  if max_lines < (splitNl text).length then pyTail max_lines (splitNl text)
  else splitNl text

/-- skipped = len(lines) - max_lines in the line-truncating case. -/
def skippedLinesCount (text : List Char) (max_lines : Nat) : Nat :=
  if max_lines < (splitNl text).length then (splitNl text).length - max_lines else 0

/-- The post-notice content: the joined kept lines, byte-truncated at a
safe UTF-8 boundary when over max_bytes. -/
def truncResult (text : List Char) (max_lines max_bytes : Nat) : List Char :=
  if max_bytes < utf8Len (joinNl (keptLines text max_lines))
  then utf8Take max_bytes (joinNl (keptLines text max_lines))
  else joinNl (keptLines text max_lines)

/-- skipped_bytes = byte_count - max_bytes in the byte-truncating case. -/
def skippedBytesCount (text : List Char) (max_lines max_bytes : Nat) : Nat :=
  if max_bytes < utf8Len (joinNl (keptLines text max_lines))
  then utf8Len text - max_bytes else 0

/-- The notice produced for a given input. -/
def noticeOf (text : List Char) (max_lines max_bytes : Nat)
    (savePath : Option (List Char)) : List Char :=
  truncationNotice (skippedLinesCount text max_lines)
    (skippedBytesCount text max_lines max_bytes)
    (splitNl text).length (utf8Len text) savePath

/-- truncate_output. -/
def truncateOutput (text : List Char) (max_lines max_bytes : Nat)
    (savePath : Option (List Char)) : List Char :=
  if text = [] then text
  else if (splitNl text).length ≤ max_lines ∧ utf8Len text ≤ max_bytes then text
  else noticeOf text max_lines max_bytes savePath
    ++ '\n' :: truncResult text max_lines max_bytes

/-! ## Event wire (src/reagent/session/wire.py)

Each subscriber queue is modelled as the list of items ever enqueued to
it, in FIFO order; the terminal sentinel None is modelled as none. -/

/-- An event on the wire (type tag and data payload). -/
structure WireEvent where
  etype : String
  data : List (String × String)
  deriving DecidableEq, Repr

/-- Wire state: subscriber queues and the closed flag. -/
structure Wire where
  subscribers : List (List (Option WireEvent))
  closed : Bool
  deriving DecidableEq, Repr

/-- A fresh wire. -/
def emptyWire : Wire := ⟨[], false⟩

/-- Wire.subscribe: add a new empty queue, return its index. -/
def Wire.subscribeOp (w : Wire) : Nat × Wire :=
  (w.subscribers.length, { w with subscribers := w.subscribers ++ [[]] })

/-- Wire.send: drop silently if closed, else enqueue to every subscriber. -/
def Wire.send (w : Wire) (e : WireEvent) : Wire :=
  if w.closed then w
  else { w with subscribers := w.subscribers.map fun q => q ++ [some e] }

/-- Wire.close: set the closed flag and enqueue the sentinel to every
subscriber (unconditionally, also on a second call). -/
def Wire.close (w : Wire) : Wire :=
  { closed := true, subscribers := w.subscribers.map fun q => q ++ [none] }

/-- One wire operation. -/
inductive WOp where
  | subscribe
  | send (e : WireEvent)
  | close
  deriving DecidableEq, Repr

/-- Run one wire operation. -/
def runWOp (w : Wire) : WOp → Wire
  | .subscribe => (w.subscribeOp).2
  | .send e => w.send e
  | .close => w.close

/-- Run a sequence of wire operations. -/
def runW (w : Wire) (ops : List WOp) : Wire :=
  ops.foldl runWOp w

/-- Number of terminal sentinels ever enqueued to a queue. -/
def sentinelCount (q : List (Option WireEvent)) : Nat :=
  q.countP fun x => x = none

/-! ## Rolling buffer (src/reagent/pty/buffer.py) -/

/-- deque(maxlen=m).append: append right, evict from the left beyond m. -/
def dequeAppend (maxLen : Nat) (l : List α) (x : α) : List α :=
  let l2 := l ++ [x]
  if maxLen < l2.length then l2.drop (l2.length - maxLen) else l2

/-- Rolling buffer state: the two parallel line tracks and the counter. -/
structure RollingBuffer where
  maxLines : Nat
  lines : List String
  rawLines : List String
  totalLines : Nat
  deriving DecidableEq, Repr

/-- A fresh buffer. -/
def emptyBuffer (maxLines : Nat) : RollingBuffer :=
  ⟨maxLines, [], [], 0⟩

/-- Append one line to both tracks and bump the counter (the loop body
shared by append and append_text). -/
def RollingBuffer.appendOne (b : RollingBuffer) (cl rl : String) : RollingBuffer :=
  { b with
      lines := dequeAppend b.maxLines b.lines cl
      rawLines := dequeAppend b.maxLines b.rawLines rl
      totalLines := b.totalLines + 1 }

/-- RollingBuffer.append: raw defaults to the cleaned line when None. -/
def RollingBuffer.appendLine (b : RollingBuffer) (line : String) (raw : Option String) : RollingBuffer :=
  b.appendOne line (raw.getD line)

/-- RollingBuffer.append_text: split both texts on newlines, pad the raw
side with empty strings up to the cleaned length, then append the zipped
pairs (zip stops at the shorter, i.e. the cleaned side). Python's
(raw_text or text) treats None and the empty string as absent. -/
def RollingBuffer.appendText (b : RollingBuffer) (text : String) (rawText : Option String) : RollingBuffer :=
  let cleanedLines := text.splitOn "\n"
  let rawSrc :=
    match rawText with
    | some r => if r = "" then text else r
    | none => text
  let rawLines0 := rawSrc.splitOn "\n"
  let rawLines := rawLines0 ++ List.replicate (cleanedLines.length - rawLines0.length) ""
  (cleanedLines.zip rawLines).foldl (fun acc p => acc.appendOne p.1 p.2) b

/-- RollingBuffer.clear: empties both tracks and resets the counter. -/
def RollingBuffer.clearOp (b : RollingBuffer) : RollingBuffer :=
  { b with lines := [], rawLines := [], totalLines := 0 }

/-- One buffer operation (reads do not mutate state). -/
inductive BOp where
  | append (line : String) (raw : Option String)
  | appendText (text : String) (raw : Option String)
  | clear
  | read
  deriving DecidableEq, Repr

/-- Run one buffer operation. -/
def runBOp (b : RollingBuffer) : BOp → RollingBuffer
  | .append l r => b.appendLine l r
  | .appendText t r => b.appendText t r
  | .clear => b.clearOp
  | .read => b

/-- Run a sequence of buffer operations. -/
def runB (b : RollingBuffer) (ops : List BOp) : RollingBuffer :=
  ops.foldl runBOp b

/-! ## Provider stream retry (src/reagent/llm/provider.py)

_acompletion_with_retry is litellm.acompletion wrapped in tenacity's
retry(retry_if_exception_type((ConnectionError, TimeoutError, OSError)),
stop_after_attempt(3), wait_exponential(multiplier=1, min=1, max=30),
reraise=True); the loop consuming the returned stream is outside the
decorated function and therefore not retried. The open call is modelled
as a function from the attempt number (1-based) to its outcome; a stream
is a list of chunk outcomes. -/

/-- Exception kinds relevant to the retry predicate. -/
inductive PyErr where
  | connectionError (s : String)
  | timeoutError (s : String)
  | osError (s : String)
  | otherError (s : String)
  deriving DecidableEq, Repr

/-- retry_if_exception_type((ConnectionError, TimeoutError, OSError)). -/
def PyErr.transient : PyErr → Bool
  | .connectionError _ => true
  | .timeoutError _ => true
  | .osError _ => true
  | .otherError _ => false

/-- wait_exponential(multiplier=1, min=1, max=30): the sleep after the
k-th failed attempt. -/
def backoffWait (k : Nat) : Nat :=
  min 30 (max 1 (2 ^ (k - 1)))

/-- The tenacity-decorated open call, unrolled for stop_after_attempt(3):
returns the outcome together with the number of attempts made and the
backoff sleeps taken between attempts. -/
def acompletionWithRetry (f : Nat → Except PyErr β) :
    Except PyErr β × Nat × List Nat :=
  match f 1 with
  | .ok b => (.ok b, 1, [])
  | .error e1 =>
    if e1.transient then
      match f 2 with
      | .ok b => (.ok b, 2, [backoffWait 1])
      | .error e2 =>
        if e2.transient then
          match f 3 with
          | .ok b => (.ok b, 3, [backoffWait 1, backoffWait 2])
          | .error e3 => (.error e3, 3, [backoffWait 1, backoffWait 2])
        else (.error e2, 2, [backoffWait 1])
    else (.error e1, 1, [])

/-- Consume a stream: yield chunks until the first error, which
propagates immediately (the async-for in stream/generate). -/
def consumeStream : List (Except PyErr α) → Except PyErr (List α)
  | [] => .ok []
  | .error e :: _ => .error e
  | .ok c :: rest =>
    match consumeStream rest with
    | .ok cs => .ok (c :: cs)
    | .error e => .error e

/-- The full provider stream path: open with retry, then consume.
Returns the outcome plus open attempts made and backoff sleeps. -/
def streamRun (f : Nat → Except PyErr (List (Except PyErr α))) :
    Except PyErr (List α) × Nat × List Nat :=
  match acompletionWithRetry f with
  | (.error e, att, ws) => (.error e, att, ws)
  | (.ok chunks, att, ws) => (consumeStream chunks, att, ws)

/-! ## Tool registry (src/reagent/tool/registry.py) -/

/-- A registered tool: its name and its __call__ behaviour on the raw
argument blob. BaseTool.__call__ catches Exception internally, so an
error value here models a BaseException (such as the revert signal)
propagating out of the tool. -/
structure RTool where
  name : String
  run : String → Except String (String × Bool)

/-- Registry state: insertion-ordered tools, unique names. -/
structure ToolRegistry where
  tools : List RTool

/-- Lookup a tool by name (dict get). -/
def findTool : List RTool → String → Option RTool
  | [], _ => none
  | t :: rest, n => if t.name = n then some t else findTool rest n

/-- ToolRegistry.names: registered names in insertion order. -/
def ToolRegistry.names (reg : ToolRegistry) : List String :=
  reg.tools.map RTool.name

/-- ", ".join(names). -/
def joinComma : List String → String
  | [] => ""
  | [s] => s
  | s :: rest => s ++ ", " ++ joinComma rest

/-- ToolRegistry.dispatch, instrumented with the list of tools whose
execution pipeline was invoked. The unknown-name branch returns an error
result without invoking anything and cannot raise. -/
def ToolRegistry.dispatch (reg : ToolRegistry) (callName callArgs : String) :
    Except String ((String × Bool) × List String) :=
  match findTool reg.tools callName with
  | none =>
    .ok (("Unknown tool: " ++ callName ++ ". Available tools: " ++ joinComma reg.names, true), [])
  | some t =>
    match t.run callArgs with
    | .ok r => .ok (r, [t.name])
    | .error e => .error e

/-! ## Supporting lemmas for the context store -/

/-- revert_to never changes the checkpoint counter. -/
theorem revertTo_checkpointCounter (ctx : Context) (id : Nat) :
    ((ctx.revertTo id).2).checkpointCounter = ctx.checkpointCounter := by
  unfold Context.revertTo
  cases dictGet ctx.checkpoints id <;> rfl

/-- Folding append over a list of messages never touches the counter. -/
theorem foldl_append_checkpointCounter (trs : List Message) :
    ∀ c : Context, (trs.foldl Context.append c).checkpointCounter = c.checkpointCounter := by
  induction trs with
  | nil => intro c; rfl
  | cons t rest ih => intro c; simpa [Context.append] using ih (c.append t)

/-- grow only appends, so the counter is untouched. -/
theorem grow_checkpointCounter (ctx : Context) (a : Message) (trs : List Message) :
    (ctx.grow a trs).checkpointCounter = ctx.checkpointCounter := by
  unfold Context.grow
  rw [foldl_append_checkpointCounter]
  rfl

/-! ## C7 — checkpoint monotonicity and revert semantics -/

/-- C7: ids assigned by successive checkpoint() calls are strictly
increasing (the id handed out is the counter, which only ever grows
across operations), and revert_to(id) keeps exactly the checkpoints with
key at most the target while truncating the messages to the index
recorded at the target. -/
theorem checkpoint_monotonicity :
    (∀ ctx : Context,
      (ctx.checkpointOp).1 = ctx.checkpointCounter ∧
      ((ctx.checkpointOp).2).checkpointCounter = ctx.checkpointCounter + 1 ∧
      (ctx.checkpointOp).1 < (((ctx.checkpointOp).2).checkpointOp).1) ∧
    (∀ (ctx : Context) (op : COp) (ctx2 : Context), runOp ctx op = .ok ctx2 →
      ctx.checkpointCounter ≤ ctx2.checkpointCounter) ∧
    (∀ (ctx : Context) (id idx : Nat), dictGet ctx.checkpoints id = some idx →
      (ctx.revertTo id).1 = .ok () ∧
      ((ctx.revertTo id).2).messages = ctx.messages.take idx ∧
      (∀ k v, (k, v) ∈ ((ctx.revertTo id).2).checkpoints ↔
        ((k, v) ∈ ctx.checkpoints ∧ k ≤ id))) := by
  refine ⟨?_, ?_, ?_⟩
  · intro ctx
    exact ⟨rfl, rfl, Nat.lt_succ_self _⟩
  · intro ctx op ctx2 h
    cases op with
    | append m =>
      cases h
      exact Nat.le_refl _
    | appendSystem t =>
      cases h
      exact Nat.le_refl _
    | checkpoint =>
      cases h
      exact Nat.le_succ _
    | revertTo id =>
      dsimp [runOp] at h
      rcases hr : ctx.revertTo id with ⟨r, c⟩
      rw [hr] at h
      cases r with
      | error e => cases h
      | ok u =>
        cases h
        have := revertTo_checkpointCounter ctx id
        rw [hr] at this
        exact Nat.le_of_eq this.symm
    | rewrite =>
      cases h
      exact Nat.le_refl _
    | grow a trs =>
      cases h
      exact Nat.le_of_eq (grow_checkpointCounter ctx a trs).symm
  · intro ctx id idx h
    unfold Context.revertTo
    rw [h]
    refine ⟨rfl, rfl, ?_⟩
    intro k v
    simp only [List.mem_filter, decide_eq_true_eq]

/-- A small concrete context with one message and one checkpoint. -/
def cpDemoCtx : Context :=
  ((emptyContext.append (Message.user "hi")).checkpointOp).2

/-- Witness for C7 at a concrete context: checkpoint 0 records index 1
and reverting to it keeps the single message and the checkpoint. -/
theorem checkpoint_monotonicity_witness :
    dictGet cpDemoCtx.checkpoints 0 = some 1 ∧
    ((cpDemoCtx.checkpointOp).1 = cpDemoCtx.checkpointCounter ∧
      ((cpDemoCtx.checkpointOp).2).checkpointCounter = cpDemoCtx.checkpointCounter + 1 ∧
      (cpDemoCtx.checkpointOp).1 < (((cpDemoCtx.checkpointOp).2).checkpointOp).1) ∧
    cpDemoCtx.checkpointCounter ≤ ((cpDemoCtx.checkpointOp).2).checkpointCounter ∧
    ((cpDemoCtx.revertTo 0).1 = .ok () ∧
      ((cpDemoCtx.revertTo 0).2).messages = cpDemoCtx.messages.take 1 ∧
      (∀ k v, (k, v) ∈ ((cpDemoCtx.revertTo 0).2).checkpoints ↔
        ((k, v) ∈ cpDemoCtx.checkpoints ∧ k ≤ 0))) :=
  ⟨rfl,
    checkpoint_monotonicity.1 cpDemoCtx,
    checkpoint_monotonicity.2.1 cpDemoCtx .checkpoint _ rfl,
    checkpoint_monotonicity.2.2 cpDemoCtx 0 1 rfl⟩

/-! ## C9 — revert_to with an unknown checkpoint -/

/-- C9: revert_to with an id missing from the checkpoint map fails with
the ValueError message and leaves the context (messages, checkpoint map,
counter, and on-disk log) exactly unchanged; the check precedes every
mutation. -/
theorem revert_unknown_checkpoint :
    ∀ (ctx : Context) (id : Nat),
      dictGet ctx.checkpoints id = none →
      ctx.revertTo id = (.error ("Unknown checkpoint: " ++ toString id), ctx) := by
  intro ctx id h
  unfold Context.revertTo
  rw [h]

/-- Witness for C9: checkpoint 99 is unknown in the demo context. -/
theorem revert_unknown_checkpoint_witness :
    dictGet cpDemoCtx.checkpoints 99 = none ∧
    cpDemoCtx.revertTo 99 = (.error ("Unknown checkpoint: " ++ toString 99), cpDemoCtx) :=
  ⟨rfl, revert_unknown_checkpoint cpDemoCtx 99 rfl⟩

/-! ## C10 — dispatch of an unknown tool name -/

/-- C10: dispatching a call whose name is not registered never raises:
it returns an error result naming the unknown tool and listing the
registered tool names, and invokes no tool. -/
theorem dispatch_unknown_tool :
    ∀ (reg : ToolRegistry) (callName callArgs : String),
      findTool reg.tools callName = none →
      reg.dispatch callName callArgs =
        .ok (("Unknown tool: " ++ callName ++ ". Available tools: " ++ joinComma reg.names,
          true), []) := by
  intro reg n a h
  unfold ToolRegistry.dispatch
  rw [h]

/-- A registry with two tools, for the C10 witness. -/
def demoRegistry : ToolRegistry :=
  ⟨[⟨"shell", fun _ => .ok ("ok", false)⟩, ⟨"read_file", fun _ => .ok ("", false)⟩]⟩

/-- Witness for C10: dispatching an unregistered name on the demo
registry yields the error result and no invocation. -/
theorem dispatch_unknown_tool_witness :
    findTool demoRegistry.tools "frobnicate" = none ∧
    demoRegistry.dispatch "frobnicate" "{}" =
      .ok (("Unknown tool: " ++ "frobnicate" ++ ". Available tools: " ++ joinComma demoRegistry.names,
        true), []) :=
  ⟨rfl, dispatch_unknown_tool demoRegistry "frobnicate" "{}" rfl⟩

/-! ## C5 — wire close semantics -/

/-- Operations other than close never set the closed flag. -/
theorem runWOp_closed (w : Wire) (op : WOp) (h : op ≠ .close) :
    (runWOp w op).closed = w.closed := by
  cases op with
  | subscribe => rfl
  | send e =>
    simp only [runWOp, Wire.send]
    split <;> rfl
  | close => exact absurd rfl h

/-- A close-free run preserves the closed flag. -/
theorem runW_closed (ops : List WOp) (hops : ∀ op ∈ ops, op ≠ WOp.close) :
    ∀ w : Wire, (runW w ops).closed = w.closed := by
  induction ops with
  | nil => intro w; rfl
  | cons op rest ih =>
    intro w
    have h1 : (runW w (op :: rest)) = runW (runWOp w op) rest := rfl
    rw [h1, ih (fun o ho => hops o (List.mem_cons_of_mem _ ho)),
      runWOp_closed w op (hops op (List.mem_cons_self _ _))]

/-- A close-free run on a wire whose queues are sentinel-free keeps all
queues sentinel-free. -/
theorem runW_sentinel_free (ops : List WOp) (hops : ∀ op ∈ ops, op ≠ WOp.close) :
    ∀ w : Wire, (∀ q ∈ w.subscribers, sentinelCount q = 0) →
      ∀ q ∈ (runW w ops).subscribers, sentinelCount q = 0 := by
  induction ops with
  | nil => intro w hw; exact hw
  | cons op rest ih =>
    intro w hw
    have hrest : ∀ op ∈ rest, op ≠ WOp.close :=
      fun o ho => hops o (List.mem_cons_of_mem _ ho)
    refine ih hrest (runWOp w op) ?_
    cases op with
    | subscribe =>
      intro q hq
      simp only [runWOp, Wire.subscribeOp, List.mem_append, List.mem_singleton] at hq
      rcases hq with hq | hq
      · exact hw q hq
      · subst hq; rfl
    | send e =>
      intro q hq
      simp only [runWOp, Wire.send] at hq
      split at hq
      · exact hw q hq
      · simp only [List.mem_map] at hq
        rcases hq with ⟨q0, hq0, rfl⟩
        have h0 := hw q0 hq0
        unfold sentinelCount at h0 ⊢
        rw [List.countP_append, h0]
        rfl
    | close => exact absurd rfl (hops _ (List.mem_cons_self _ _))

/-- On a closed wire, a close-free run leaves every existing queue
untouched and only appends fresh empty queues. -/
theorem runW_closed_stable (ops : List WOp) (hops : ∀ op ∈ ops, op ≠ WOp.close) :
    ∀ w : Wire, w.closed = true →
      (runW w ops).closed = true ∧
      w.subscribers.length ≤ (runW w ops).subscribers.length ∧
      (∀ i, i < w.subscribers.length →
        (runW w ops).subscribers[i]? = w.subscribers[i]?) ∧
      (∀ i q, w.subscribers.length ≤ i →
        (runW w ops).subscribers[i]? = some q → sentinelCount q = 0) := by
  induction ops with
  | nil =>
    intro w hw
    refine ⟨hw, Nat.le_refl _, fun i _ => rfl, fun i q hi hq => ?_⟩
    have hq2 : w.subscribers[i]? = some q := hq
    rw [List.getElem?_eq_none hi] at hq2
    cases hq2
  | cons op rest ih =>
    intro w hw
    have hrest : ∀ op ∈ rest, op ≠ WOp.close :=
      fun o ho => hops o (List.mem_cons_of_mem _ ho)
    have hstep : runW w (op :: rest) = runW (runWOp w op) rest := rfl
    cases op with
    | subscribe =>
      have hw1 : (runWOp w .subscribe).closed = true := hw
      have h1 := ih hrest (runWOp w .subscribe) hw1
      have hsub : (runWOp w .subscribe).subscribers = w.subscribers ++ [[]] := rfl
      have hlen1 : (runWOp w .subscribe).subscribers.length = w.subscribers.length + 1 := by
        rw [hsub]; simp
      refine ⟨h1.1, ?_, ?_, ?_⟩
      · calc w.subscribers.length
            ≤ (runWOp w .subscribe).subscribers.length := by omega
          _ ≤ (runW (runWOp w .subscribe) rest).subscribers.length := h1.2.1
      · intro i hi
        rw [hstep, h1.2.2.1 i (by omega), hsub, List.getElem?_append_left hi]
      · intro i q hi hq
        rw [hstep] at hq
        by_cases hi2 : i < (runWOp w .subscribe).subscribers.length
        · have hieq : i = w.subscribers.length := by omega
          subst hieq
          rw [h1.2.2.1 _ hi2, hsub,
            List.getElem?_append_right (Nat.le_refl _)] at hq
          simp only [Nat.sub_self, List.getElem?_cons_zero] at hq
          injection hq with hq
          subst hq
          rfl
        · exact h1.2.2.2 i q (by omega) hq
    | send e =>
      have hsend : runWOp w (.send e) = w := by
        simp only [runWOp, Wire.send, hw]
        rfl
      rw [hstep, hsend]
      exact ih hrest w hw
    | close => exact absurd rfl (hops _ (List.mem_cons_self _ _))

/-- C5 counterexample: one subscriber, then close() twice. The second
close enqueues a second sentinel, so the subscriber receives two
terminal sentinels, not exactly one. -/
theorem wire_close_counterexample :
    (runW emptyWire [.subscribe, .close, .close]).subscribers.map sentinelCount = [2] ∧
    (runW emptyWire [.subscribe, .close, .close]).subscribers.map sentinelCount ≠ [1] := by
  constructor
  · rfl
  · decide

/-- C5 amended: after the first close, every send is a no-op; and in any
run with exactly one close, each subscriber subscribed at close time has
exactly one sentinel enqueued, while subscribers added after the close
have none. (Repeated close() calls, however, enqueue one sentinel
each.) -/
theorem wire_close_amended :
    (∀ (w : Wire) (e : WireEvent), w.closed = true → w.send e = w) ∧
    (∀ (pre post : List WOp),
      (∀ op ∈ pre, op ≠ WOp.close) → (∀ op ∈ post, op ≠ WOp.close) →
      ∀ i q, (runW emptyWire (pre ++ .close :: post)).subscribers[i]? = some q →
        sentinelCount q =
          if i < (runW emptyWire pre).subscribers.length then 1 else 0) := by
  constructor
  · intro w e hw
    simp only [Wire.send, hw]
    rfl
  · intro pre post hpre hpost i q hq
    have hsplit : runW emptyWire (pre ++ .close :: post)
        = runW (Wire.close (runW emptyWire pre)) post := by
      simp only [runW, List.foldl_append, List.foldl_cons]
      rfl
    set w1 := runW emptyWire pre with hw1
    have hfree : ∀ q ∈ w1.subscribers, sentinelCount q = 0 :=
      runW_sentinel_free pre hpre emptyWire (by intro q hq2; cases hq2)
    have hclosed : (w1.close).closed = true := rfl
    have hclose_sub : (w1.close).subscribers = w1.subscribers.map (fun q => q ++ [none]) := rfl
    have hstable := runW_closed_stable post hpost w1.close hclosed
    rw [hsplit] at hq
    by_cases hi : i < w1.subscribers.length
    · have hlen : i < (w1.close).subscribers.length := by
        rw [hclose_sub]; simpa using hi
      rw [hstable.2.2.1 i hlen, hclose_sub, List.getElem?_map] at hq
      rcases hget : w1.subscribers[i]? with _ | q0
      · rw [hget] at hq; cases hq
      · rw [hget] at hq
        simp only [Option.map_some'] at hq
        have hq0 : q0 ∈ w1.subscribers := List.getElem?_mem hget
        have h0 := hfree q0 hq0
        have hq' : q = q0 ++ [none] := by injection hq with h; exact h.symm
        subst hq'
        rw [if_pos hi]
        unfold sentinelCount at h0 ⊢
        rw [List.countP_append, h0]
        rfl
    · have hge : (w1.close).subscribers.length ≤ i := by
        rw [hclose_sub]; simp only [List.length_map]; omega
      rw [if_neg hi]
      exact hstable.2.2.2 i q hge hq

/-- Witness for C5 amended: a concrete closed wire drops a send, and in
the run subscribe-send-close-subscribe the first subscriber has exactly
one sentinel and the late subscriber none. -/
theorem wire_close_amended_witness :
    (Wire.mk [[]] true).closed = true ∧
    (Wire.mk [[]] true).send ⟨"text", [("text", "hi")]⟩ = Wire.mk [[]] true ∧
    (∀ op ∈ [WOp.subscribe, WOp.send ⟨"text", []⟩], op ≠ WOp.close) ∧
    (∀ op ∈ [WOp.subscribe], op ≠ WOp.close) ∧
    (runW emptyWire ([WOp.subscribe, WOp.send ⟨"text", []⟩] ++ .close :: [WOp.subscribe])).subscribers[0]?
      = some [some ⟨"text", []⟩, none] ∧
    sentinelCount [some (WireEvent.mk "text" []), none] =
      (if 0 < (runW emptyWire [WOp.subscribe, WOp.send ⟨"text", []⟩]).subscribers.length then 1 else 0) :=
  ⟨rfl,
    wire_close_amended.1 (Wire.mk [[]] true) ⟨"text", [("text", "hi")]⟩ rfl,
    by decide,
    by decide,
    rfl,
    wire_close_amended.2 [WOp.subscribe, WOp.send ⟨"text", []⟩] [WOp.subscribe]
      (by decide) (by decide) 0 [some ⟨"text", []⟩, none] rfl⟩

/-! ## C6 — rolling buffer invariants -/

/-- Length after a bounded deque append: one more, capped at maxLen. -/
theorem dequeAppend_length (maxLen : Nat) (l : List α) (x : α) :
    (dequeAppend maxLen l x).length = min maxLen (l.length + 1) := by
  unfold dequeAppend
  dsimp only
  split
  · rename_i h
    simp only [List.length_append, List.length_singleton] at h
    simp only [List.length_drop, List.length_append, List.length_singleton]
    omega
  · rename_i h
    simp only [List.length_append, List.length_singleton] at h
    simp only [List.length_append, List.length_singleton]
    omega

/-- The buffer well-formedness invariant: parallel tracks of equal
length, bounded by max_lines. -/
def BufInv (b : RollingBuffer) : Prop :=
  b.lines.length = b.rawLines.length ∧ b.lines.length ≤ b.maxLines

/-- appendOne preserves the invariant and the maxLines field. -/
theorem appendOne_inv (b : RollingBuffer) (cl rl : String) (h : BufInv b) :
    BufInv (b.appendOne cl rl) := by
  rcases h with ⟨heq, hle⟩
  unfold BufInv RollingBuffer.appendOne
  constructor
  · simp only [dequeAppend_length, heq]
  · simp only [dequeAppend_length]
    exact Nat.min_le_left _ _

/-- The fold inside append_text keeps the maxLines configuration. -/
theorem foldl_appendOne_maxLines (pairs : List (String × String)) :
    ∀ b : RollingBuffer,
      (pairs.foldl (fun acc p => acc.appendOne p.1 p.2) b).maxLines = b.maxLines := by
  induction pairs with
  | nil => intro b; rfl
  | cons p rest ih => intro b; exact ih (b.appendOne p.1 p.2)

/-- The fold inside append_text preserves the invariant. -/
theorem foldl_appendOne_inv (pairs : List (String × String)) :
    ∀ b : RollingBuffer, BufInv b →
      BufInv (pairs.foldl (fun acc p => acc.appendOne p.1 p.2) b) := by
  induction pairs with
  | nil => intro b h; exact h
  | cons p rest ih => intro b h; exact ih _ (appendOne_inv b p.1 p.2 h)

/-- Every buffer operation preserves the invariant. -/
theorem runBOp_inv (b : RollingBuffer) (op : BOp) (h : BufInv b) :
    BufInv (runBOp b op) := by
  cases op with
  | append l r => exact appendOne_inv b l _ h
  | appendText t r => exact foldl_appendOne_inv _ b h
  | clear => exact ⟨rfl, Nat.zero_le _⟩
  | read => exact h

/-- The fold inside append_text never decreases the counter. -/
theorem foldl_appendOne_total (pairs : List (String × String)) :
    ∀ b : RollingBuffer,
      b.totalLines ≤ (pairs.foldl (fun acc p => acc.appendOne p.1 p.2) b).totalLines := by
  induction pairs with
  | nil => intro b; exact Nat.le_refl _
  | cons p rest ih =>
    intro b
    exact Nat.le_trans (Nat.le_succ _) (ih (b.appendOne p.1 p.2))

/-- C6 counterexample: clear() resets total_lines to 0, so the counter
decreases across a clear after one append — total_lines is not monotone
over every operation. -/
theorem buffer_total_lines_counterexample :
    (runB (emptyBuffer 50000) [.append "x" none, .clear]).totalLines
      < (runB (emptyBuffer 50000) [.append "x" none]).totalLines := by
  decide

/-- C6 amended: after any operation sequence the cleaned and raw tracks
have equal length, never exceeding max_lines; total_lines never
decreases across append, append_text, or read; clear resets it to 0. -/
theorem buffer_invariant_amended :
    (∀ (maxLines : Nat) (ops : List BOp),
      (runB (emptyBuffer maxLines) ops).lines.length
          = (runB (emptyBuffer maxLines) ops).rawLines.length ∧
      (runB (emptyBuffer maxLines) ops).lines.length ≤ maxLines) ∧
    (∀ (b : RollingBuffer) (op : BOp), op ≠ .clear →
      b.totalLines ≤ (runBOp b op).totalLines) ∧
    (∀ b : RollingBuffer, (runBOp b .clear).totalLines = 0) := by
  refine ⟨?_, ?_, ?_⟩
  · intro maxLines ops
    have hmax : ∀ ops2 : List BOp, ∀ b : RollingBuffer,
        (runB b ops2).maxLines = b.maxLines := by
      intro ops2
      induction ops2 with
      | nil => intro b; rfl
      | cons op rest ih =>
        intro b
        have hop : (runBOp b op).maxLines = b.maxLines := by
          cases op with
          | append l r => rfl
          | appendText t r => exact foldl_appendOne_maxLines _ b
          | clear => rfl
          | read => rfl
        rw [runB, List.foldl_cons, ← runB, ih, hop]
    have hinv : ∀ ops2 : List BOp, ∀ b : RollingBuffer, BufInv b →
        BufInv (runB b ops2) := by
      intro ops2
      induction ops2 with
      | nil => intro b h; exact h
      | cons op rest ih =>
        intro b h
        exact ih (runBOp b op) (runBOp_inv b op h)
    have h0 : BufInv (emptyBuffer maxLines) := ⟨rfl, Nat.zero_le _⟩
    have h := hinv ops (emptyBuffer maxLines) h0
    rcases h with ⟨heq, hle⟩
    have := hmax ops (emptyBuffer maxLines)
    exact ⟨heq, by rw [this] at hle; exact hle⟩
  · intro b op hne
    cases op with
    | append l r => exact Nat.le_succ _
    | appendText t r => exact foldl_appendOne_total _ b
    | clear => exact absurd rfl hne
    | read => exact Nat.le_refl _
  · intro b
    rfl

/-- Witness for C6 amended at concrete inputs: lengths stay equal and
bounded for a run with a two-line append_text into a 1-line buffer, and
append does not decrease the counter. -/
theorem buffer_invariant_amended_witness :
    ((runB (emptyBuffer 1) [.appendText "a\nb" none, .append "c" (some "C")]).lines.length
        = (runB (emptyBuffer 1) [.appendText "a\nb" none, .append "c" (some "C")]).rawLines.length ∧
      (runB (emptyBuffer 1) [.appendText "a\nb" none, .append "c" (some "C")]).lines.length ≤ 1) ∧
    (BOp.append "c" (some "C") ≠ BOp.clear ∧
      (emptyBuffer 1).totalLines ≤ (runBOp (emptyBuffer 1) (.append "c" (some "C"))).totalLines) ∧
    (runBOp (emptyBuffer 1) .clear).totalLines = 0 :=
  ⟨buffer_invariant_amended.1 1 [.appendText "a\nb" none, .append "c" (some "C")],
    ⟨by decide, buffer_invariant_amended.2.1 (emptyBuffer 1) (.append "c" (some "C")) (by decide)⟩,
    buffer_invariant_amended.2.2 (emptyBuffer 1)⟩

/-! ## C8 — retry policy of the provider stream -/

/-- The concrete stream used in the C8 counterexample: opening succeeds
on the first attempt, and the first chunk of the stream raises a
transient ConnectionError. -/
def c8openF : Nat → Except PyErr (List (Except PyErr String)) :=
  fun _ => .ok [.error (.connectionError "Connection reset by peer")]

/-- C8 counterexample: a transient connection error raised while
consuming the provider stream is re-raised to the caller immediately,
after a single open attempt and with no backoff sleeps — it is not
retried, contradicting the claim that transient network errors get up to
3 attempts before the error is re-raised. -/
theorem retry_transient_counterexample :
    streamRun c8openF = (.error (.connectionError "Connection reset by peer"), 1, []) := by
  rfl

/-- C8 amended: the retry policy applies only to opening the stream (the
acompletion call): there, transient connection/timeout/OS errors are
retried with exponential backoff (sleeps 1s then 2s) for at most 3
attempts, after which the last error is re-raised, while any
non-transient error is raised on its first occurrence; an error raised
while consuming the already-opened stream — transient or not — is raised
to the caller on its first occurrence without any further open attempt. -/
theorem retry_amended :
    (∀ (β : Type) (f : Nat → Except PyErr β) (b : β), f 1 = .ok b →
      acompletionWithRetry f = (.ok b, 1, [])) ∧
    (∀ (β : Type) (f : Nat → Except PyErr β) (e : PyErr),
      f 1 = .error e → e.transient = false →
      acompletionWithRetry f = (.error e, 1, [])) ∧
    (∀ (β : Type) (f : Nat → Except PyErr β) (e1 : PyErr) (b : β),
      f 1 = .error e1 → e1.transient = true → f 2 = .ok b →
      acompletionWithRetry f = (.ok b, 2, [backoffWait 1])) ∧
    (∀ (β : Type) (f : Nat → Except PyErr β) (e1 e2 e3 : PyErr),
      f 1 = .error e1 → f 2 = .error e2 → f 3 = .error e3 →
      e1.transient = true → e2.transient = true →
      acompletionWithRetry f = (.error e3, 3, [backoffWait 1, backoffWait 2])) ∧
    ([backoffWait 1, backoffWait 2, backoffWait 3, backoffWait 10] = [1, 2, 4, 30]) ∧
    (∀ (α : Type) (f : Nat → Except PyErr (List (Except PyErr α)))
        (chunks : List (Except PyErr α)) (att : Nat) (ws : List Nat),
      acompletionWithRetry f = (.ok chunks, att, ws) →
      streamRun f = (consumeStream chunks, att, ws)) ∧
    (∀ (α : Type) (pre : List α) (e : PyErr) (post : List (Except PyErr α)),
      consumeStream (pre.map .ok ++ .error e :: post) = .error e) := by
  refine ⟨?_, ?_, ?_, ?_, ?_, ?_, ?_⟩
  · intro β f b h
    simp [acompletionWithRetry, h]
  · intro β f e h ht
    simp [acompletionWithRetry, h, ht]
  · intro β f e1 b h1 ht1 h2
    simp [acompletionWithRetry, h1, ht1, h2]
  · intro β f e1 e2 e3 h1 h2 h3 ht1 ht2
    simp [acompletionWithRetry, h1, h2, h3, ht1, ht2]
  · rfl
  · intro α f chunks att ws h
    unfold streamRun
    rw [h]
  · intro α pre e post
    induction pre with
    | nil => rfl
    | cons x rest ih =>
      simp only [List.map_cons, List.cons_append, consumeStream, List.append_eq]
      rw [ih]

/-- A concrete open that fails transiently once and then succeeds, for
the C8 witness. -/
def c8retryF : Nat → Except PyErr (List (Except PyErr String)) :=
  fun k => if k = 1 then .error (.timeoutError "timed out") else .ok [.ok "chunk"]

/-- Witness for C8 amended: the transiently failing open is retried once
and succeeds on attempt 2 after a 1s backoff; consuming its stream
yields the chunk without further attempts; a mid-stream error surfaces
directly. -/
theorem retry_amended_witness :
    (c8retryF 1 = .error (.timeoutError "timed out") ∧
      PyErr.transient (.timeoutError "timed out") = true ∧
      c8retryF 2 = .ok [.ok "chunk"] ∧
      acompletionWithRetry c8retryF = (.ok [.ok "chunk"], 2, [backoffWait 1])) ∧
    streamRun c8retryF = (consumeStream [.ok "chunk"], 2, [backoffWait 1]) ∧
    consumeStream ([ "a", "b" ].map .ok ++ .error (.osError "broken pipe") :: [.ok "c"])
      = (.error (.osError "broken pipe") : Except PyErr (List String)) :=
  ⟨⟨rfl, rfl, rfl,
      retry_amended.2.2.1 _ c8retryF (.timeoutError "timed out") [.ok "chunk"] rfl rfl rfl⟩,
    retry_amended.2.2.2.2.2.1 String c8retryF [.ok "chunk"] 2 [backoffWait 1]
      (retry_amended.2.2.1 _ c8retryF (.timeoutError "timed out") [.ok "chunk"] rfl rfl rfl),
    retry_amended.2.2.2.2.2.2 String ["a", "b"] (.osError "broken pipe") [.ok "c"]⟩

/-! ## C2 — the D-Mail revert path of the agent loop -/

/-- The script used in the C2 counterexample: the first LLM step raises
the revert signal targeting the checkpoint taken at the start of the
step; any later step would complete with no tool calls. -/
def c2script : Nat → StepScript :=
  fun k =>
    if k = 0 then .dmail 0 "the password is checked with strcmp at 0x4011b2"
    else .ok ⟨"assistant", [.text "done"]⟩ [] 0

/-- C2 counterexample: with max_steps = 1, the step that raised the
D-Mail consumes the whole step budget — the loop returns MAX_STEPS after
a single attempted step and the re-attempt never runs. Under the claim
(reverted step does not consume one of max_steps) the retry would have
run and completed. -/
theorem dmail_step_budget_counterexample :
    (agentLoop 1 c2script emptyContext).outcome = .maxStepsHit ∧
    countStepBegins (agentLoop 1 c2script emptyContext).events = 1 ∧
    (agentLoop 2 c2script emptyContext).outcome = .complete ∧
    countStepBegins (agentLoop 2 c2script emptyContext).events = 2 := by
  refine ⟨rfl, rfl, rfl, rfl⟩

/-- C2 amended: when a step raises the revert signal with a valid
checkpoint, the loop fires on_dmail, reverts the context to that
checkpoint, appends a system message containing the D-Mail text, and
continues — but the reverted step does consume one unit of the step
budget (remaining steps drop from remaining+1 to remaining and the next
step number advances), so the re-attempt runs with one fewer remaining
step. -/
theorem dmail_revert_amended :
    ∀ (script : Nat → StepScript) (remaining stepNo k : Nat) (ctx : Context)
      (evs : List LoopEv) (cpid : Nat) (m : String) (idx : Nat),
      script k = .dmail cpid m →
      dictGet ((ctx.checkpointOp).2).checkpoints cpid = some idx →
      agentLoopGo script (remaining + 1) stepNo k ctx evs
        = agentLoopGo script remaining (stepNo + 1) (k + 1)
            (((((ctx.checkpointOp).2).revertTo cpid).2).appendSystem (dmailText m))
            (evs ++ [.checkpointed (ctx.checkpointOp).1, .stepBegin (stepNo + 1),
              .dmailCb cpid m]) ∧
      (∃ a b, dmailText m = a ++ m ++ b) := by
  intro script remaining stepNo k ctx evs cpid m idx hscript hget
  constructor
  · have hrev : ((ctx.checkpointOp).2).revertTo cpid
        = (.ok (), ((((ctx.checkpointOp).2).revertTo cpid).2)) := by
      unfold Context.revertTo
      rw [hget]
    conv =>
      lhs
      rw [agentLoopGo]
    rw [hscript]
    dsimp only
    rw [hrev]
    dsimp only
    rw [List.append_assoc]
    rfl
  · exact ⟨"[D-Mail from your future self]: ",
      "\n\nUse this knowledge to avoid repeating the same work. Continue with the task, applying what you now know.",
      rfl⟩

/-- Witness for C2 amended at concrete inputs: the first step of a
2-step budget raises a D-Mail to checkpoint 0 and the loop continues
from the reverted context with the injected system message, with the
step tally advanced. -/
theorem dmail_revert_amended_witness :
    c2script 0 = .dmail 0 "the password is checked with strcmp at 0x4011b2" ∧
    dictGet ((emptyContext.checkpointOp).2).checkpoints 0 = some 0 ∧
    (agentLoopGo c2script 2 0 0 emptyContext []
        = agentLoopGo c2script 1 1 1
            ((((emptyContext.checkpointOp).2).revertTo 0).2.appendSystem
              (dmailText "the password is checked with strcmp at 0x4011b2"))
            [.checkpointed 0, .stepBegin 1,
              .dmailCb 0 "the password is checked with strcmp at 0x4011b2"] ∧
      (∃ a b, dmailText "the password is checked with strcmp at 0x4011b2"
          = a ++ "the password is checked with strcmp at 0x4011b2" ++ b)) :=
  ⟨rfl, rfl, by
    have h := dmail_revert_amended c2script 1 0 0 emptyContext [] 0
      "the password is checked with strcmp at 0x4011b2" 0 rfl rfl
    simpa using h⟩

/-! ## C3 — ordering of concurrent tool results -/

/-- Every entry the schedule logs for index i carries the result of
task i. -/
theorem runSchedule_key (run : α → β) (tasks : List α) (order : List Nat) :
    ∀ i r, (i, r) ∈ runSchedule run tasks order →
      ∃ t, tasks.get? i = some t ∧ r = run t := by
  intro i r hmem
  unfold runSchedule at hmem
  rw [List.mem_filterMap] at hmem
  rcases hmem with ⟨j, _, hj⟩
  rcases hget : tasks.get? j with _ | t
  · rw [hget] at hj; cases hj
  · rw [hget] at hj
    simp only [Option.map_some'] at hj
    injection hj with h1
    have hij : j = i := congrArg Prod.fst h1
    have hr : run t = r := congrArg Prod.snd h1
    subst hij
    exact ⟨t, hget, hr.symm⟩

/-- If task i exists and index i occurs in the completion order, the log
lookup for i finds exactly the result of task i. -/
theorem find_runSchedule (run : α → β) (tasks : List α) (order : List Nat)
    (i : Nat) (t : α) (hget : tasks.get? i = some t) (horder : i ∈ order) :
    (runSchedule run tasks order).find? (fun p => p.1 == i) = some (i, run t) := by
  induction order with
  | nil => cases horder
  | cons j rest ih =>
    by_cases hji : j = i
    · subst hji
      unfold runSchedule
      simp only [List.filterMap_cons, hget, Option.map_some']
      rw [List.find?_cons_of_pos _ (by simp)]
    · have hmem : i ∈ rest := by
        rcases List.mem_cons.mp horder with h | h
        · exact absurd h.symm hji
        · exact h
      unfold runSchedule
      simp only [List.filterMap_cons]
      rcases hj : tasks.get? j with _ | tj
      · exact ih hmem
      · simp only [Option.map_some']
        rw [List.find?_cons_of_neg _ (by simp [hji])]
        exact ih hmem

/-- Option-monad mapM with pointwise some values. -/
theorem mapM_some (l : List γ) (f : γ → Option δ) (g : γ → δ)
    (h : ∀ x ∈ l, f x = some (g x)) : l.mapM f = some (l.map g) := by
  induction l with
  | nil => rfl
  | cons x rest ih =>
    rw [List.mapM_cons, h x (List.mem_cons_self _ _),
      ih (fun y hy => h y (List.mem_cons_of_mem _ hy))]
    rfl

/-- C3: step produces exactly one tool-result message per call of the
assistant message, and the assembled gather output equals the results in
the model's emission order for every completion order covering the
tasks; each result message is a tool message paired to its call by id;
grow then appends the assistant message followed by the results in that
order. -/
theorem tool_result_ordering :
    ∀ (dispatch : String × String × String → Except String (String × Bool))
      (msg : Message) (order : List Nat) (ctx : Context),
      (∀ i, i < msg.toolCallParts.length → i ∈ order) →
      gatherAssemble msg.toolCallParts.length
          (runSchedule (runTool dispatch) msg.toolCallParts order)
        = some (stepToolResults dispatch msg) ∧
      (stepToolResults dispatch msg).length = msg.toolCallParts.length ∧
      (∀ i tc, msg.toolCallParts.get? i = some tc →
        (stepToolResults dispatch msg).get? i = some (runTool dispatch tc) ∧
        ∃ content is_error,
          runTool dispatch tc = Message.toolResultMsg tc.1 content is_error) ∧
      (ctx.grow msg (stepToolResults dispatch msg)).messages
        = ctx.messages ++ msg :: stepToolResults dispatch msg := by
  intro dispatch msg order ctx hcover
  refine ⟨?_, List.length_map _ _, ?_, ?_⟩
  · unfold gatherAssemble
    have hpt : ∀ x ∈ List.range msg.toolCallParts.length,
        ((runSchedule (runTool dispatch) msg.toolCallParts order).find?
            (fun p => p.1 == x)).map Prod.snd
          = some ((fun i => runTool dispatch (msg.toolCallParts.getD i default)) x) := by
      intro x hx
      have hlt : x < msg.toolCallParts.length := List.mem_range.mp hx
      rcases hget : msg.toolCallParts.get? x with _ | t
      · rw [List.get?_eq_none] at hget
        omega
      · rw [find_runSchedule (runTool dispatch) msg.toolCallParts order x t hget
          (hcover x hlt)]
        simp only [Option.map_some']
        have : msg.toolCallParts.getD x default = t := by
          unfold List.getD
          rw [hget]
          rfl
        rw [this]
    rw [mapM_some _ _ _ hpt]
    congr 1
    refine List.ext_get? ?_
    intro n
    rcases Nat.lt_or_ge n msg.toolCallParts.length with hn | hn
    · rw [List.get?_map]
      rw [List.get?_eq_getElem?, List.getElem?_range hn]
      simp only [Option.map_some']
      unfold stepToolResults
      rw [List.get?_map]
      rcases hget : msg.toolCallParts.get? n with _ | t
      · rw [List.get?_eq_none] at hget
        omega
      · simp only [Option.map_some']
        have : msg.toolCallParts.getD n default = t := by
          unfold List.getD
          rw [hget]
          rfl
        rw [this]
    · rw [List.get?_map, List.get?_eq_getElem?, List.getElem?_eq_none (by simpa using hn)]
      unfold stepToolResults
      rw [List.get?_map, List.get?_eq_getElem?, List.getElem?_eq_none (by simpa using hn)]
      rfl
  · intro i tc hget
    constructor
    · unfold stepToolResults
      rw [List.get?_map, hget]
      rfl
    · unfold runTool
      rcases dispatch tc with e | r
      · exact ⟨"Error: " ++ e, true, rfl⟩
      · exact ⟨r.1, r.2, rfl⟩
  · unfold Context.grow
    have hfold : ∀ (trs : List Message) (c : Context),
        (trs.foldl Context.append c).messages = c.messages ++ trs := by
      intro trs
      induction trs with
      | nil => intro c; simp
      | cons t rest ih =>
        intro c
        rw [List.foldl_cons, ih (c.append t)]
        simp [Context.append]
    rw [hfold]
    simp [Context.append]

/-- A message with two tool calls, for the C3 witness. -/
def c3msg : Message :=
  ⟨"assistant", [.text "checking",
    .toolCall "t1" "shell" "\x7b\"command\": \"ls\"\x7d",
    .toolCall "t2" "read_file" "\x7b\"path\": \"a\"\x7d"]⟩

/-- The dispatch used in the C3 witness. -/
def c3dispatch : String × String × String → Except String (String × Bool) :=
  fun tc => if tc.2.1 = "shell" then .ok ("a", false) else .ok ("b", false)

/-- Witness for C3 at a concrete two-call message with the reversed
completion order [1, 0]: gather still assembles results in call order
and grow appends them after the assistant message. -/
theorem tool_result_ordering_witness :
    (∀ i, i < c3msg.toolCallParts.length → i ∈ [1, 0]) ∧
    (gatherAssemble c3msg.toolCallParts.length
        (runSchedule (runTool c3dispatch) c3msg.toolCallParts [1, 0])
      = some (stepToolResults c3dispatch c3msg) ∧
      (stepToolResults c3dispatch c3msg).length = c3msg.toolCallParts.length ∧
      (∀ i tc, c3msg.toolCallParts.get? i = some tc →
        (stepToolResults c3dispatch c3msg).get? i = some (runTool c3dispatch tc) ∧
        ∃ content is_error,
          runTool c3dispatch tc = Message.toolResultMsg tc.1 content is_error) ∧
      (emptyContext.grow c3msg (stepToolResults c3dispatch c3msg)).messages
        = emptyContext.messages ++ c3msg :: stepToolResults c3dispatch c3msg) :=
  ⟨by decide, tool_result_ordering c3dispatch c3msg [1, 0] emptyContext (by decide)⟩

/-! ## C4 — lemmas about line splitting and UTF-8 byte accounting -/

/-- splitNl never returns the empty list. -/
theorem splitNl_ne_nil : ∀ cs : List Char, splitNl cs ≠ [] := by
  intro cs
  induction cs with
  | nil => simp [splitNl]
  | cons c rest ih =>
    unfold splitNl
    split <;> simp

/-- The unfolding equation of splitNl on a cons. -/
theorem splitNl_cons (c : Char) (cs : List Char) :
    splitNl (c :: cs) = if c = '\n' then [] :: splitNl cs
      else (c :: (splitNl cs).headI) :: (splitNl cs).tail := rfl

/-- Splitting across an explicit newline splits the two sides. -/
theorem splitNl_append_nl (a b : List Char) :
    splitNl (a ++ '\n' :: b) = splitNl a ++ splitNl b := by
  induction a with
  | nil => simp [splitNl]
  | cons c rest ih =>
    rcases h : splitNl rest with _ | ⟨l, ls⟩
    · exact absurd h (splitNl_ne_nil rest)
    · rw [List.cons_append, splitNl_cons, splitNl_cons, ih, h]
      by_cases hc : c = '\n'
      · simp [hc]
      · simp [hc]

/-- Line counts are additive over concatenation, up to the merged
boundary line. -/
theorem splitNl_append_length (a b : List Char) :
    (splitNl (a ++ b)).length + 1 = (splitNl a).length + (splitNl b).length := by
  induction a with
  | nil => simp [splitNl]; omega
  | cons c rest ih =>
    rcases h1 : splitNl (rest ++ b) with _ | ⟨l1, ls1⟩
    · exact absurd h1 (splitNl_ne_nil _)
    · rcases h2 : splitNl rest with _ | ⟨l2, ls2⟩
      · exact absurd h2 (splitNl_ne_nil _)
      · rw [h1, h2] at ih
        rw [List.cons_append, splitNl_cons, splitNl_cons, h1, h2]
        simp only [List.length_cons] at ih
        by_cases hc : c = '\n' <;> simp [hc] <;> omega

/-- No produced line contains a newline. -/
theorem mem_splitNl_no_nl : ∀ (cs : List Char), ∀ l ∈ splitNl cs, '\n' ∉ l := by
  intro cs
  induction cs with
  | nil =>
    intro l hl
    simp [splitNl] at hl
    subst hl
    simp
  | cons c rest ih =>
    intro l hl
    rcases h : splitNl rest with _ | ⟨l0, ls⟩
    · exact absurd h (splitNl_ne_nil rest)
    · unfold splitNl at hl
      rw [h] at hl
      have ih0 : '\n' ∉ l0 := ih l0 (h ▸ List.mem_cons_self _ _)
      by_cases hc : c = '\n'
      · rw [if_pos hc] at hl
        rcases List.mem_cons.mp hl with rfl | hl2
        · simp
        · exact ih _ (h ▸ hl2)
      · rw [if_neg hc] at hl
        simp only [List.headI, List.tail] at hl
        rcases List.mem_cons.mp hl with rfl | hl2
        · intro hmem
          rcases List.mem_cons.mp hmem with h2 | h2
          · exact hc h2.symm
          · exact ih0 h2
        · exact ih _ (h ▸ List.mem_cons_of_mem _ hl2)

/-- A newline-free string is a single line. -/
theorem splitNl_of_no_nl : ∀ cs : List Char, '\n' ∉ cs → splitNl cs = [cs] := by
  intro cs
  induction cs with
  | nil => intro; rfl
  | cons c rest ih =>
    intro h
    have hc : c ≠ '\n' := fun hcc => h (hcc ▸ List.mem_cons_self _ _)
    have hrest : '\n' ∉ rest := fun hm => h (List.mem_cons_of_mem _ hm)
    unfold splitNl
    rw [ih hrest, if_neg hc]
    rfl

/-- Each produced line is no longer than the input. -/
theorem mem_splitNl_length_le : ∀ (cs : List Char), ∀ l ∈ splitNl cs, l.length ≤ cs.length := by
  intro cs
  induction cs with
  | nil =>
    intro l hl
    simp [splitNl] at hl
    subst hl
    simp
  | cons c rest ih =>
    intro l hl
    rcases h : splitNl rest with _ | ⟨l0, ls⟩
    · exact absurd h (splitNl_ne_nil rest)
    · unfold splitNl at hl
      rw [h] at hl
      have ih0 : l0.length ≤ rest.length := ih l0 (h ▸ List.mem_cons_self _ _)
      by_cases hc : c = '\n'
      · rw [if_pos hc] at hl
        rcases List.mem_cons.mp hl with rfl | hl2
        · simp
        · exact Nat.le_succ_of_le (ih _ (h ▸ hl2))
      · rw [if_neg hc] at hl
        simp only [List.headI, List.tail] at hl
        rcases List.mem_cons.mp hl with rfl | hl2
        · simpa using ih0
        · exact Nat.le_succ_of_le (ih _ (h ▸ List.mem_cons_of_mem _ hl2))

/-- joinNl on a cons with a nonempty tail. -/
theorem joinNl_cons (l : List Char) (ls : List (List Char)) (h : ls ≠ []) :
    joinNl (l :: ls) = l ++ '\n' :: joinNl ls := by
  rcases ls with _ | ⟨l2, ls2⟩
  · exact absurd rfl h
  · rfl

/-- join undoes split for nonempty newline-free line lists. -/
theorem splitNl_joinNl : ∀ ls : List (List Char), ls ≠ [] → (∀ l ∈ ls, '\n' ∉ l) →
    splitNl (joinNl ls) = ls := by
  intro ls
  induction ls with
  | nil => intro h; exact absurd rfl h
  | cons l rest ih =>
    intro _ hnl
    rcases hr : rest with _ | ⟨l2, ls2⟩
    · exact splitNl_of_no_nl l (hnl l (List.mem_cons_self _ _))
    · rw [← hr, joinNl_cons l rest (by rw [hr]; simp), splitNl_append_nl,
        splitNl_of_no_nl l (hnl l (List.mem_cons_self _ _)),
        ih (by rw [hr]; simp) (fun x hx => hnl x (List.mem_cons_of_mem _ hx))]
      rfl

/-- UTF-8 length is additive. -/
theorem utf8Len_append (a b : List Char) : utf8Len (a ++ b) = utf8Len a + utf8Len b := by
  simp [utf8Len]

/-- UTF-8 length of a cons. -/
theorem utf8Len_cons (c : Char) (cs : List Char) :
    utf8Len (c :: cs) = c.utf8Size + utf8Len cs := by
  simp [utf8Len]

/-- UTF-8 length of a replicate. -/
theorem utf8Len_replicate (k : Nat) (c : Char) :
    utf8Len (List.replicate k c) = k * c.utf8Size := by
  induction k with
  | zero => simp [utf8Len]
  | succ n ih =>
    rw [List.replicate_succ, utf8Len_cons, ih]
    ring

/-- The byte-truncated string is a prefix of the input. -/
theorem utf8Take_isPrefix : ∀ (n : Nat) (cs : List Char), utf8Take n cs <+: cs := by
  intro n cs
  induction cs generalizing n with
  | nil => exact List.prefix_refl _
  | cons c rest ih =>
    unfold utf8Take
    split
    · exact List.prefix_cons_inj c |>.mpr (ih _)
    · exact List.nil_prefix

/-- Byte truncation respects the byte budget. -/
theorem utf8Len_utf8Take : ∀ (n : Nat) (cs : List Char), utf8Len (utf8Take n cs) ≤ n := by
  intro n cs
  induction cs generalizing n with
  | nil => simp [utf8Take, utf8Len]
  | cons c rest ih =>
    unfold utf8Take
    split
    · rename_i h
      rw [utf8Len_cons]
      have := ih (n - c.utf8Size)
      omega
    · simp [utf8Len]

/-- Byte truncation is the identity within the budget. -/
theorem utf8Take_of_le : ∀ (n : Nat) (cs : List Char), utf8Len cs ≤ n → utf8Take n cs = cs := by
  intro n cs
  induction cs generalizing n with
  | nil => intro; rfl
  | cons c rest ih =>
    intro h
    rw [utf8Len_cons] at h
    unfold utf8Take
    rw [if_pos (by omega), ih (n - c.utf8Size) (by omega)]

/-- On all-1-byte text, byte truncation is list truncation. -/
theorem utf8Take_ones : ∀ (cs : List Char) (n : Nat), (∀ c ∈ cs, c.utf8Size = 1) →
    utf8Take n cs = cs.take n := by
  intro cs
  induction cs with
  | nil => intro n _; simp [utf8Take]
  | cons c rest ih =>
    intro n h
    have hc : c.utf8Size = 1 := h c (List.mem_cons_self _ _)
    unfold utf8Take
    rw [hc]
    rcases n with _ | n
    · simp
    · rw [if_pos (by omega), ih (n + 1 - 1) (fun x hx => h x (List.mem_cons_of_mem _ hx))]
      simp

/-- Line count is monotone under taking a prefix. -/
theorem splitNl_prefix_length (a b : List Char) (h : a <+: b) :
    (splitNl a).length ≤ (splitNl b).length := by
  rcases h with ⟨r, rfl⟩
  have hlen := splitNl_append_length a r
  have hpos : 0 < (splitNl r).length := List.length_pos.mpr (splitNl_ne_nil r)
  omega

/-- Length of a Python negative-index tail slice. -/
theorem pyTail_length (n : Nat) (l : List α) (h : n ≠ 0) :
    (pyTail n l).length = l.length - (l.length - n) := by
  unfold pyTail
  rw [if_neg h, List.length_drop]

/-- The tail slice is bounded by n. -/
theorem pyTail_length_le (n : Nat) (l : List α) (h : n ≠ 0) :
    (pyTail n l).length ≤ n := by
  rw [pyTail_length n l h]
  omega

/-- The tail slice of a nonempty list is nonempty (for n > 0). -/
theorem pyTail_ne_nil (n : Nat) (l : List α) (h : n ≠ 0) (hl : l ≠ []) :
    pyTail n l ≠ [] := by
  have hpos : 0 < l.length := List.length_pos.mpr hl
  have := pyTail_length n l h
  intro hnil
  rw [hnil] at this
  simp at this
  omega

/-- Tail-slice elements come from the list. -/
theorem pyTail_subset (n : Nat) (l : List α) : ∀ x ∈ pyTail n l, x ∈ l := by
  intro x hx
  unfold pyTail at hx
  split at hx
  · exact hx
  · exact List.mem_of_mem_drop hx

/-! ### Newline-freeness of the truncation notice -/

/-- Digits are never a newline. -/
theorem digitChar_ne_nl (n : Nat) : Nat.digitChar n ≠ '\n' := by
  match n with
  | 0 | 1 | 2 | 3 | 4 | 5 | 6 | 7 | 8 | 9 | 10 | 11 | 12 | 13 | 14 | 15 => decide
  | m + 16 =>
    unfold Nat.digitChar
    repeat rw [if_neg (by omega)]
    decide

/-- The digit accumulator loop only ever emits digits. -/
theorem toDigitsCore_ne_nl :
    ∀ (fuel n : Nat) (ds : List Char), (∀ c ∈ ds, c ≠ '\n') →
      ∀ c ∈ Nat.toDigitsCore 10 fuel n ds, c ≠ '\n' := by
  intro fuel
  induction fuel with
  | zero => intro n ds hds c hc; exact hds c hc
  | succ f ih =>
    intro n ds hds c hc
    unfold Nat.toDigitsCore at hc
    dsimp only at hc
    split at hc
    · rcases List.mem_cons.mp hc with rfl | hmem
      · exact digitChar_ne_nl _
      · exact hds c hmem
    · refine ih (n / 10) (Nat.digitChar (n % 10) :: ds) ?_ c hc
      intro x hx
      rcases List.mem_cons.mp hx with rfl | hmem
      · exact digitChar_ne_nl _
      · exact hds x hmem

/-- str(n) contains no newline. -/
theorem natChars_no_nl (n : Nat) : '\n' ∉ natChars n := by
  intro h
  have hrepr : natChars n = Nat.toDigits 10 n := rfl
  rw [hrepr] at h
  exact toDigitsCore_ne_nl (n + 1) n [] (by intro c hc; cases hc) '\n' h rfl

/-- Joining newline-free pieces with ", " stays newline-free. -/
theorem joinCommaC_no_nl : ∀ ls : List (List Char), (∀ l ∈ ls, '\n' ∉ l) →
    '\n' ∉ joinCommaC ls := by
  intro ls
  induction ls with
  | nil => intro; simp [joinCommaC]
  | cons l rest ih =>
    intro h
    rcases rest with _ | ⟨l2, ls2⟩
    · exact h l (List.mem_cons_self _ _)
    · intro hmem
      unfold joinCommaC at hmem
      rcases List.mem_append.mp hmem with hm | hm
      · rcases List.mem_append.mp hm with hm2 | hm2
        · exact h l (List.mem_cons_self _ _) hm2
        · revert hm2; decide
      · exact ih (fun x hx => h x (List.mem_cons_of_mem _ hx)) hm

/-- The first notice line contains no newline. -/
theorem noticeBase_no_nl (sk sb tl bc : Nat) : '\n' ∉ noticeBase sk sb tl bc := by
  intro hmem
  unfold noticeBase at hmem
  have hparts : ∀ l ∈ ((if 0 < sk then [natChars sk ++ (" lines skipped").data] else [])
      ++ (if 0 < sb then [natChars sb ++ (" bytes skipped").data] else [])), '\n' ∉ l := by
    intro l hl
    rcases List.mem_append.mp hl with hm | hm
    · split at hm
      · rcases List.mem_singleton.mp hm with rfl
        intro hx
        rcases List.mem_append.mp hx with hx2 | hx2
        · exact natChars_no_nl sk hx2
        · revert hx2; decide
      · cases hm
    · split at hm
      · rcases List.mem_singleton.mp hm with rfl
        intro hx
        rcases List.mem_append.mp hx with hx2 | hx2
        · exact natChars_no_nl sb hx2
        · revert hx2; decide
      · cases hm
  rcases List.mem_append.mp hmem with h1 | h1
  · rcases List.mem_append.mp h1 with h2 | h2
    · rcases List.mem_append.mp h2 with h3 | h3
      · rcases List.mem_append.mp h3 with h4 | h4
        · rcases List.mem_append.mp h4 with h5 | h5
          · rcases List.mem_append.mp h5 with h6 | h6
            · revert h6; decide
            · exact joinCommaC_no_nl _ hparts h6
          · revert h5; decide
        · exact natChars_no_nl tl h4
      · revert h3; decide
    · exact natChars_no_nl bc h2
  · revert h1; decide

/-- The notice is one line without a save path, two lines with one. -/
theorem splitNl_truncationNotice (sk sb tl bc : Nat) (savePath : Option (List Char))
    (hp : ∀ p, savePath = some p → '\n' ∉ p) :
    (splitNl (truncationNotice sk sb tl bc savePath)).length ≤ 2 := by
  rcases savePath with _ | p
  · rw [truncationNotice, splitNl_of_no_nl _ (noticeBase_no_nl sk sb tl bc)]
    simp
  · have hp2 : '\n' ∉ p := hp p rfl
    have htail : '\n' ∉ ("[Full output saved to: ").data ++ p ++ [']'] := by
      intro hmem
      rcases List.mem_append.mp hmem with h1 | h1
      · rcases List.mem_append.mp h1 with h2 | h2
        · revert h2; decide
        · exact hp2 h2
      · revert h1; decide
    rw [truncationNotice]
    dsimp only
    rw [splitNl_append_nl, splitNl_of_no_nl _ (noticeBase_no_nl sk sb tl bc),
      splitNl_of_no_nl _ htail]
    simp

/-! ### Structure of the truncated output -/

/-- The kept lines are nonempty. -/
theorem keptLines_ne_nil (text : List Char) (max_lines : Nat) (h : max_lines ≠ 0) :
    keptLines text max_lines ≠ [] := by
  unfold keptLines
  split
  · exact pyTail_ne_nil _ _ h (splitNl_ne_nil text)
  · exact splitNl_ne_nil text

/-- At most max_lines lines are kept. -/
theorem keptLines_length_le (text : List Char) (max_lines : Nat) (h : max_lines ≠ 0) :
    (keptLines text max_lines).length ≤ max_lines := by
  unfold keptLines
  split
  · exact pyTail_length_le _ _ h
  · omega

/-- Kept lines contain no newline. -/
theorem keptLines_no_nl (text : List Char) (max_lines : Nat) :
    ∀ l ∈ keptLines text max_lines, '\n' ∉ l := by
  intro l hl
  unfold keptLines at hl
  split at hl
  · exact mem_splitNl_no_nl text l (pyTail_subset _ _ l hl)
  · exact mem_splitNl_no_nl text l hl

/-- The content after the notice fits the byte budget. -/
theorem utf8Len_truncResult_le (text : List Char) (max_lines max_bytes : Nat) :
    utf8Len (truncResult text max_lines max_bytes) ≤ max_bytes := by
  unfold truncResult
  split
  · exact utf8Len_utf8Take _ _
  · omega

/-- The content after the notice has at most max_lines lines. -/
theorem splitNl_truncResult_length (text : List Char) (max_lines max_bytes : Nat)
    (h : max_lines ≠ 0) :
    (splitNl (truncResult text max_lines max_bytes)).length ≤ max_lines := by
  have hjoin : splitNl (joinNl (keptLines text max_lines)) = keptLines text max_lines :=
    splitNl_joinNl _ (keptLines_ne_nil text max_lines h) (keptLines_no_nl text max_lines)
  have hpre : truncResult text max_lines max_bytes <+: joinNl (keptLines text max_lines) := by
    unfold truncResult
    split
    · exact utf8Take_isPrefix _ _
    · exact List.prefix_refl _
  calc (splitNl (truncResult text max_lines max_bytes)).length
      ≤ (splitNl (joinNl (keptLines text max_lines))).length :=
        splitNl_prefix_length _ _ hpre
    _ = (keptLines text max_lines).length := by rw [hjoin]
    _ ≤ max_lines := keptLines_length_le text max_lines h

/-- C4 amended: inputs within both limits are returned unchanged; a
truncated output is the notice (at most 2 lines, newline-free save path)
followed by content of at most max_lines lines and at most max_bytes
bytes — so the overall line count is bounded by max_lines plus the
notice lines, not by max_lines itself; and when the input exceeds
max_lines lines, the last max_lines input lines follow the notice
exactly if they fit the byte budget (otherwise the tail is further
byte-truncated from its end). -/
theorem truncation_bounds_amended :
    ∀ (text : List Char) (max_lines max_bytes : Nat) (savePath : Option (List Char)),
      max_lines ≠ 0 →
      (∀ p, savePath = some p → '\n' ∉ p) →
      (((splitNl text).length ≤ max_lines ∧ utf8Len text ≤ max_bytes) →
        truncateOutput text max_lines max_bytes savePath = text) ∧
      (splitNl (truncateOutput text max_lines max_bytes savePath)).length ≤ max_lines + 2 ∧
      (¬((splitNl text).length ≤ max_lines ∧ utf8Len text ≤ max_bytes) →
        truncateOutput text max_lines max_bytes savePath
          = noticeOf text max_lines max_bytes savePath
              ++ '\n' :: truncResult text max_lines max_bytes ∧
        utf8Len (truncResult text max_lines max_bytes) ≤ max_bytes ∧
        (splitNl (noticeOf text max_lines max_bytes savePath)).length ≤ 2) ∧
      (max_lines < (splitNl text).length →
        utf8Len (joinNl (pyTail max_lines (splitNl text))) ≤ max_bytes →
        splitNl (truncateOutput text max_lines max_bytes savePath)
          = splitNl (noticeOf text max_lines max_bytes savePath)
              ++ pyTail max_lines (splitNl text)) := by
  intro text max_lines max_bytes savePath hml hp
  have hnotice : (splitNl (noticeOf text max_lines max_bytes savePath)).length ≤ 2 :=
    splitNl_truncationNotice _ _ _ _ savePath hp
  by_cases htext : text = []
  · subst htext
    have hin : (splitNl ([] : List Char)).length ≤ max_lines ∧ utf8Len [] ≤ max_bytes := by
      constructor
      · show (1 : Nat) ≤ max_lines
        omega
      · show (0 : Nat) ≤ max_bytes
        omega
    refine ⟨fun _ => rfl, ?_, fun hcon => absurd hin hcon, fun h1 _ => ?_⟩
    · show (splitNl []).length ≤ max_lines + 2
      show (1 : Nat) ≤ max_lines + 2
      omega
    · exact absurd h1 (by omega)
  · by_cases hin : (splitNl text).length ≤ max_lines ∧ utf8Len text ≤ max_bytes
    · have heq : truncateOutput text max_lines max_bytes savePath = text := by
        rw [truncateOutput, if_neg htext, if_pos hin]
      refine ⟨fun _ => heq, ?_, fun hcon => absurd hin hcon, fun h1 _ => ?_⟩
      · rw [heq]; omega
      · exact absurd h1 (by omega)
    · have heq : truncateOutput text max_lines max_bytes savePath
          = noticeOf text max_lines max_bytes savePath
              ++ '\n' :: truncResult text max_lines max_bytes := by
        rw [truncateOutput, if_neg htext, if_neg hin]
      have hsplitout : splitNl (truncateOutput text max_lines max_bytes savePath)
          = splitNl (noticeOf text max_lines max_bytes savePath)
              ++ splitNl (truncResult text max_lines max_bytes) := by
        rw [heq, splitNl_append_nl]
      refine ⟨fun hin2 => absurd hin2 hin, ?_, fun _ =>
        ⟨heq, utf8Len_truncResult_le text max_lines max_bytes, hnotice⟩, ?_⟩
      · rw [hsplitout]
        have h1 := splitNl_truncResult_length text max_lines max_bytes hml
        simp only [List.length_append]
        omega
      · intro hover hfit
        have hkept : keptLines text max_lines = pyTail max_lines (splitNl text) := by
          unfold keptLines
          rw [if_pos hover]
        have hres : truncResult text max_lines max_bytes
            = joinNl (pyTail max_lines (splitNl text)) := by
          unfold truncResult
          rw [hkept, if_neg (by omega)]
        rw [hsplitout, hres,
          splitNl_joinNl _ (pyTail_ne_nil _ _ hml (splitNl_ne_nil text))
            (fun l hl => mem_splitNl_no_nl text l (pyTail_subset _ _ l hl))]

/-- Witness for C4 amended at a concrete input: 3 one-byte lines into a
2-line budget, with a newline-free save path. -/
theorem truncation_bounds_amended_witness :
    (2 : Nat) ≠ 0 ∧
    (∀ p, (some ("/tmp/out.txt").data : Option (List Char)) = some p → '\n' ∉ p) ∧
    ((((splitNl ("a\nb\nc").data).length ≤ 2 ∧ utf8Len ("a\nb\nc").data ≤ 100) →
        truncateOutput ("a\nb\nc").data 2 100 (some ("/tmp/out.txt").data) = ("a\nb\nc").data) ∧
      (splitNl (truncateOutput ("a\nb\nc").data 2 100 (some ("/tmp/out.txt").data))).length ≤ 2 + 2 ∧
      (¬(((splitNl ("a\nb\nc").data).length ≤ 2 ∧ utf8Len ("a\nb\nc").data ≤ 100)) →
        truncateOutput ("a\nb\nc").data 2 100 (some ("/tmp/out.txt").data)
          = noticeOf ("a\nb\nc").data 2 100 (some ("/tmp/out.txt").data)
              ++ '\n' :: truncResult ("a\nb\nc").data 2 100 ∧
        utf8Len (truncResult ("a\nb\nc").data 2 100) ≤ 100 ∧
        (splitNl (noticeOf ("a\nb\nc").data 2 100 (some ("/tmp/out.txt").data))).length ≤ 2) ∧
      (2 < (splitNl ("a\nb\nc").data).length →
        utf8Len (joinNl (pyTail 2 (splitNl ("a\nb\nc").data))) ≤ 100 →
        splitNl (truncateOutput ("a\nb\nc").data 2 100 (some ("/tmp/out.txt").data))
          = splitNl (noticeOf ("a\nb\nc").data 2 100 (some ("/tmp/out.txt").data))
              ++ pyTail 2 (splitNl ("a\nb\nc").data))) :=
  ⟨by decide, by
      intro p hp
      injection hp with hp
      subst hp
      decide,
    truncation_bounds_amended ("a\nb\nc").data 2 100 (some ("/tmp/out.txt").data)
      (by decide)
      (by
        intro p hp
        injection hp with hp
        subst hp
        decide)⟩

/-! ### C4 counterexample computations -/

/-- Splitting a block of leading newlines yields that many empty lines. -/
theorem splitNl_replicate_nl (k : Nat) (cs : List Char) :
    splitNl (List.replicate k '\n' ++ cs) = List.replicate k [] ++ splitNl cs := by
  induction k with
  | zero => simp
  | succ n ih =>
    rw [List.replicate_succ, List.cons_append, splitNl_cons, if_pos rfl, ih]
    rfl

/-- Joining empty lines before a final line restores the newlines. -/
theorem joinNl_replicate_nil (k : Nat) (x : List Char) :
    joinNl (List.replicate k ([] : List Char) ++ [x]) = List.replicate k '\n' ++ x := by
  induction k with
  | zero => simp [joinNl]
  | succ n ih =>
    rw [List.replicate_succ, List.cons_append,
      joinNl_cons _ _ (by simp), ih, List.replicate_succ]
    rfl

/-- The C4 counterexample input: 2001 newlines followed by a 60000-byte
line — 2002 lines, 62001 bytes, both over the default limits. -/
def c4text : List Char := List.replicate 2001 '\n' ++ List.replicate 60000 'a'

/-- The modelled temp-file path for the counterexample. -/
def c4path : List Char := ("/tmp/reagent-full.txt").data

/-- C4 counterexample: on an input exceeding MAX_LINES lines whose tail
also exceeds MAX_BYTES, the returned content has more than MAX_LINES
lines (the notice rides on top of the 2000 kept lines), and it does not
contain the last input line at all (byte truncation cut it), so the
claimed bounds \"lines ≤ MAX_LINES\" and \"contains the last MAX_LINES
lines\" are both false. -/
theorem truncation_bounds_counterexample :
    MAX_LINES < (splitNl c4text).length ∧
    List.replicate 60000 'a' ∈ pyTail MAX_LINES (splitNl c4text) ∧
    MAX_LINES < (splitNl (truncateOutput c4text MAX_LINES MAX_BYTES (some c4path))).length ∧
    List.replicate 60000 'a' ∉ splitNl (truncateOutput c4text MAX_LINES MAX_BYTES (some c4path)) := by
  have hnolA : '\n' ∉ List.replicate 60000 'a' := by
    intro h
    exact absurd (List.eq_of_mem_replicate h) (by decide)
  have hF1 : splitNl c4text = List.replicate 2001 ([] : List Char) ++ [List.replicate 60000 'a'] := by
    rw [c4text, splitNl_replicate_nl, splitNl_of_no_nl _ hnolA]
  have hF2 : (splitNl c4text).length = 2002 := by
    rw [hF1]
    simp only [List.length_append, List.length_replicate, List.length_singleton]
  have hF3 : utf8Len c4text = 62001 := by
    rw [c4text, utf8Len_append, utf8Len_replicate, utf8Len_replicate]
    decide
  have hF4 : pyTail MAX_LINES (splitNl c4text)
      = List.replicate 1999 ([] : List Char) ++ [List.replicate 60000 'a'] := by
    rw [pyTail, if_neg (by decide), hF1]
    simp only [List.length_append, List.length_replicate, List.length_singleton]
    rw [List.drop_append_eq_append_drop, List.drop_replicate, List.length_replicate]
    have e1 : 2001 - (2001 + 1 - MAX_LINES) = 1999 := by decide
    have e2 : (2001 + 1 - MAX_LINES) - 2001 = 0 := by decide
    rw [e1, e2, List.drop_zero]
  have hF5 : keptLines c4text MAX_LINES
      = List.replicate 1999 ([] : List Char) ++ [List.replicate 60000 'a'] := by
    rw [keptLines, if_pos (by rw [hF2]; decide)]
    exact hF4
  have hF6 : joinNl (keptLines c4text MAX_LINES)
      = List.replicate 1999 '\n' ++ List.replicate 60000 'a' := by
    rw [hF5, joinNl_replicate_nil]
  have hF7 : utf8Len (joinNl (keptLines c4text MAX_LINES)) = 61999 := by
    rw [hF6, utf8Len_append, utf8Len_replicate, utf8Len_replicate]
    decide
  have hones : ∀ c ∈ List.replicate 1999 '\n' ++ List.replicate 60000 'a', c.utf8Size = 1 := by
    intro c hc
    rcases List.mem_append.mp hc with h | h
    · rw [List.eq_of_mem_replicate h]
      decide
    · rw [List.eq_of_mem_replicate h]
      decide
  have hF8 : truncResult c4text MAX_LINES MAX_BYTES
      = List.replicate 1999 '\n' ++ List.replicate 49201 'a' := by
    rw [truncResult, if_pos (by rw [hF7]; decide), hF6, utf8Take_ones _ _ hones,
      List.take_append_eq_append_take, List.take_replicate, List.take_replicate,
      List.length_replicate]
    have e1 : min MAX_BYTES 1999 = 1999 := by decide
    have e2 : min (MAX_BYTES - 1999) 60000 = 49201 := by decide
    rw [e1, e2]
  have hF9 : splitNl (truncResult c4text MAX_LINES MAX_BYTES)
      = List.replicate 1999 ([] : List Char) ++ [List.replicate 49201 'a'] := by
    have hnolB : '\n' ∉ List.replicate 49201 'a' := by
      intro h
      exact absurd (List.eq_of_mem_replicate h) (by decide)
    rw [hF8, splitNl_replicate_nl, splitNl_of_no_nl _ hnolB]
  have hne : c4text ≠ [] := by
    have h0 : c4text.length = 62001 := by
      rw [c4text]
      simp only [List.length_append, List.length_replicate]
    intro heq
    rw [heq, List.length_nil] at h0
    exact absurd h0 (by decide)
  have hnotin : ¬((splitNl c4text).length ≤ MAX_LINES ∧ utf8Len c4text ≤ MAX_BYTES) := by
    rw [hF2]
    intro hcon
    exact absurd hcon.1 (by decide)
  have hout : truncateOutput c4text MAX_LINES MAX_BYTES (some c4path)
      = noticeOf c4text MAX_LINES MAX_BYTES (some c4path)
          ++ '\n' :: truncResult c4text MAX_LINES MAX_BYTES := by
    rw [truncateOutput, if_neg hne, if_neg hnotin]
  have houtsplit : splitNl (truncateOutput c4text MAX_LINES MAX_BYTES (some c4path))
      = splitNl (noticeOf c4text MAX_LINES MAX_BYTES (some c4path))
          ++ (List.replicate 1999 ([] : List Char) ++ [List.replicate 49201 'a']) := by
    rw [hout, splitNl_append_nl, hF9]
  have hG1 : skippedLinesCount c4text MAX_LINES = 2 := by
    rw [skippedLinesCount, if_pos (by rw [hF2]; decide), hF2]
    decide
  have hG2 : skippedBytesCount c4text MAX_LINES MAX_BYTES = 10801 := by
    rw [skippedBytesCount, if_pos (by rw [hF7]; decide), hF3]
    decide
  have hnoticeEq : noticeOf c4text MAX_LINES MAX_BYTES (some c4path)
      = truncationNotice 2 10801 2002 62001 (some c4path) := by
    rw [noticeOf, hG1, hG2, hF2, hF3]
  have hnoticeLen : (noticeOf c4text MAX_LINES MAX_BYTES (some c4path)).length < 60000 := by
    rw [hnoticeEq]
    decide
  refine ⟨by rw [hF2]; decide, ?_, ?_, ?_⟩
  · rw [hF4]
    exact List.mem_append_right _ (List.mem_singleton.mpr rfl)
  · rw [houtsplit]
    have hpos : 0 < (splitNl (noticeOf c4text MAX_LINES MAX_BYTES (some c4path))).length :=
      List.length_pos.mpr (splitNl_ne_nil _)
    simp only [List.length_append, List.length_replicate, List.length_singleton]
    show 2000 < _
    omega
  · rw [houtsplit]
    intro hmem
    rcases List.mem_append.mp hmem with h1 | h1
    · have hlen := mem_splitNl_length_le _ _ h1
      rw [List.length_replicate] at hlen
      omega
    · rcases List.mem_append.mp h1 with h2 | h2
      · have h3 := List.eq_of_mem_replicate h2
        have hlen := congrArg List.length h3
        rw [List.length_replicate, List.length_nil] at hlen
        exact absurd hlen (by decide)
      · have h3 := List.mem_singleton.mp h2
        have hlen := congrArg List.length h3
        rw [List.length_replicate, List.length_replicate] at hlen
        exact absurd hlen (by decide)

/-! ## C1 — log replay -/

/-- Splitting a replay over an appended line. -/
theorem restoreLog_append (f : List LogLine) (l : LogLine) :
    restoreLog (f ++ [l]) = restoreLine (restoreLog f) l := by
  unfold restoreLog
  rw [List.foldl_append]
  rfl

/-- Replay agreement between the rebuilt state and the live context. -/
def ReplayInv (c : Context) : Prop :=
  (restoreLog c.file).messages = c.messages ∧
  (restoreLog c.file).checkpoints = c.checkpoints

/-- Appending a stable message preserves replay agreement. -/
theorem replayInv_append (c : Context) (m : Message)
    (hc : ReplayInv c) (hm : MsgStable m) : ReplayInv (c.append m) := by
  rcases hc with ⟨h1, h2⟩
  unfold ReplayInv Context.append
  dsimp only
  rw [restoreLog_append]
  unfold restoreLine
  dsimp only
  rw [h1, h2, hm]
  exact ⟨rfl, rfl⟩

/-- Taking a checkpoint preserves replay agreement. -/
theorem replayInv_checkpoint (c : Context) (hc : ReplayInv c) :
    ReplayInv ((c.checkpointOp).2) := by
  rcases hc with ⟨h1, h2⟩
  unfold ReplayInv Context.checkpointOp
  dsimp only
  rw [restoreLog_append]
  unfold restoreLine
  dsimp only
  rw [h1, h2]
  exact ⟨rfl, rfl⟩

/-- Growing with stable messages preserves replay agreement. -/
theorem replayInv_grow (trs : List Message) :
    ∀ c : Context, ReplayInv c → (∀ tr ∈ trs, MsgStable tr) →
      ReplayInv (trs.foldl Context.append c) := by
  induction trs with
  | nil => intro c hc _; exact hc
  | cons t rest ih =>
    intro c hc hst
    exact ih (c.append t)
      (replayInv_append c t hc (hst t (List.mem_cons_self _ _)))
      (fun tr htr => hst tr (List.mem_cons_of_mem _ htr))

/-- Any run of append-only operations with stable messages preserves
replay agreement. -/
theorem replayInv_runOps (ops : List COp) :
    ∀ c c2 : Context, ReplayInv c →
      (∀ op ∈ ops, op.appendOnly ∧ op.stable) →
      runOps c ops = .ok c2 → ReplayInv c2 := by
  induction ops with
  | nil =>
    intro c c2 hc _ hrun
    cases hrun
    exact hc
  | cons op rest ih =>
    intro c c2 hc hops hrun
    have hop := hops op (List.mem_cons_self _ _)
    have hrest : ∀ o ∈ rest, o.appendOnly ∧ o.stable :=
      fun o ho => hops o (List.mem_cons_of_mem _ ho)
    cases op with
    | append m =>
      exact ih _ c2 (replayInv_append c m hc hop.2) hrest hrun
    | appendSystem t =>
      exact ih _ c2 (replayInv_append c _ hc hop.2) hrest hrun
    | checkpoint =>
      exact ih _ c2 (replayInv_checkpoint c hc) hrest hrun
    | grow a trs =>
      refine ih _ c2 ?_ hrest hrun
      exact replayInv_grow trs (c.append a)
        (replayInv_append c a hc hop.2.1) hop.2.2
    | revertTo id => exact absurd hop.1 (by simp [COp.appendOnly])
    | rewrite => exact absurd hop.1 (by simp [COp.appendOnly])

/-- Replaying serialized messages appends their round-trips. -/
theorem restore_msgs (ds : List MsgDict) :
    ∀ s : RestoreState,
      List.foldl restoreLine s (ds.map LogLine.msg)
        = { s with messages := s.messages ++ ds.map dictToMessage } := by
  induction ds with
  | nil => intro s; simp
  | cons d rest ih =>
    intro s
    rw [List.map_cons, List.foldl_cons, ih]
    unfold restoreLine
    simp

/-- Inserting a fresh key appends it. -/
theorem dictInsert_not_mem (l : List (Nat × Nat)) (k v : Nat)
    (h : k ∉ l.map Prod.fst) : dictInsert l k v = l ++ [(k, v)] := by
  induction l with
  | nil => rfl
  | cons p rest ih =>
    unfold dictInsert
    rw [List.map_cons] at h
    have hne : p.1 ≠ k := fun he => h (he ▸ List.mem_cons_self _ _)
    rw [if_neg hne, ih (fun hm => h (List.mem_cons_of_mem _ hm))]
    rfl

/-- Replaying checkpoint markers with fresh distinct keys appends each
key at the current message count. -/
theorem restore_checkpoints (cps : List (Nat × Nat)) :
    ∀ s : RestoreState,
      (cps.map Prod.fst).Nodup →
      (∀ k ∈ cps.map Prod.fst, k ∉ s.checkpoints.map Prod.fst) →
      (List.foldl restoreLine s (cps.map (fun p => LogLine.checkpoint p.1))).messages
          = s.messages ∧
      (List.foldl restoreLine s (cps.map (fun p => LogLine.checkpoint p.1))).checkpoints
          = s.checkpoints ++ cps.map (fun p => (p.1, s.messages.length)) := by
  induction cps with
  | nil => intro s _ _; exact ⟨rfl, by simp⟩
  | cons p rest ih =>
    intro s hnodup hfresh
    rw [List.map_cons] at hnodup
    have hp_fresh : p.1 ∉ s.checkpoints.map Prod.fst :=
      hfresh p.1 (by rw [List.map_cons]; exact List.mem_cons_self _ _)
    have hs1 : restoreLine s (LogLine.checkpoint p.1)
        = { s with
            checkpoints := s.checkpoints ++ [(p.1, s.messages.length)],
            checkpointCounter := max s.checkpointCounter (p.1 + 1) } := by
      unfold restoreLine
      dsimp only
      rw [dictInsert_not_mem _ _ _ hp_fresh]
    have hrest_nodup : (rest.map Prod.fst).Nodup := hnodup.of_cons
    have hrest_fresh : ∀ k ∈ rest.map Prod.fst,
        k ∉ (s.checkpoints ++ [(p.1, s.messages.length)]).map Prod.fst := by
      intro k hk hmem
      rw [List.map_append] at hmem
      rcases List.mem_append.mp hmem with h1 | h1
      · exact hfresh k (by rw [List.map_cons]; exact List.mem_cons_of_mem _ hk) h1
      · have : k = p.1 := by simpa using h1
        subst this
        exact (List.nodup_cons.mp hnodup).1 hk
    rw [List.map_cons, List.foldl_cons, hs1]
    have hres := ih { s with
        checkpoints := s.checkpoints ++ [(p.1, s.messages.length)],
        checkpointCounter := max s.checkpointCounter (p.1 + 1) }
      hrest_nodup (by exact hrest_fresh)
    rcases hres with ⟨hm, hcp⟩
    refine ⟨hm, ?_⟩
    rw [hcp]
    simp [List.map_cons]

/-- Insertion keeps the list a permutation. -/
theorem insertByKey_perm (p : Nat × Nat) (l : List (Nat × Nat)) :
    List.Perm (insertByKey p l) (p :: l) := by
  induction l with
  | nil => exact List.Perm.refl _
  | cons q rest ih =>
    unfold insertByKey
    split
    · exact List.Perm.refl _
    · exact (List.Perm.cons q ih).trans (List.Perm.swap _ _ _)

/-- Sorting by key is a permutation. -/
theorem sortByKey_perm (l : List (Nat × Nat)) : List.Perm (sortByKey l) l := by
  induction l with
  | nil => exact List.Perm.refl _
  | cons p rest ih =>
    unfold sortByKey
    unfold sortByKey at ih
    exact (insertByKey_perm p _).trans (List.Perm.cons p ih)

/-- Round-tripping a list of stable messages is the identity. -/
theorem map_roundtrip (ms : List Message) (h : ∀ m ∈ ms, MsgStable m) :
    (ms.map messageToDict).map dictToMessage = ms := by
  rw [List.map_map]
  exact List.map_congr_left h |>.trans (List.map_id ms)

/-- C1 counterexample: checkpoint, append, checkpoint, revert_to the
second checkpoint. The rewrite writes checkpoint markers after all
messages, so on restore every checkpoint is assigned the final message
index: checkpoint 0 (recorded at index 0) restores to index 1 — replay
is not the identity on the checkpoint map after a revert/rewrite. -/
theorem log_replay_counterexample :
    ∃ ctx : Context,
      runOps emptyContext
          [.checkpoint, .append (Message.user "m"), .checkpoint, .revertTo 1]
        = .ok ctx ∧
      (restoreLog ctx.file).messages = ctx.messages ∧
      ctx.checkpoints = [(0, 0), (1, 1)] ∧
      (restoreLog ctx.file).checkpoints = [(0, 1), (1, 1)] ∧
      (restoreLog ctx.file).checkpoints ≠ ctx.checkpoints := by
  refine ⟨_, rfl, ?_, ?_, ?_, ?_⟩ <;> decide

/-- C1 amended: replay is the identity on messages and the checkpoint
map for any run of append/append_system/checkpoint/grow operations with
serialization-stable messages; after a rewrite (and hence after
revert_to, which rewrites), replay still restores the same messages and
the same checkpoint ids, but every restored checkpoint maps to the final
message count instead of its recorded index. -/
theorem log_replay_amended :
    (∀ (ops : List COp) (ctx : Context),
      (∀ op ∈ ops, op.appendOnly ∧ op.stable) →
      runOps emptyContext ops = .ok ctx →
      (restoreLog ctx.file).messages = ctx.messages ∧
      (restoreLog ctx.file).checkpoints = ctx.checkpoints) ∧
    (∀ ctx : Context,
      (∀ m ∈ ctx.messages, MsgStable m) →
      (ctx.checkpoints.map Prod.fst).Nodup →
      (restoreLog (rewriteFile ctx)).messages = ctx.messages ∧
      (restoreLog (rewriteFile ctx)).checkpoints
        = (sortByKey ctx.checkpoints).map (fun p => (p.1, ctx.messages.length))) := by
  constructor
  · intro ops ctx hops hrun
    have h0 : ReplayInv emptyContext := ⟨rfl, rfl⟩
    exact replayInv_runOps ops emptyContext ctx h0 hops hrun
  · intro ctx hstable hnodup
    have hmsgs : ctx.messages.map (fun m => LogLine.msg (messageToDict m))
        = (ctx.messages.map messageToDict).map LogLine.msg := by
      rw [List.map_map]
      rfl
    have hroundtrip : (ctx.messages.map messageToDict).map dictToMessage = ctx.messages :=
      map_roundtrip ctx.messages hstable
    have hsplit : restoreLog (rewriteFile ctx)
        = List.foldl restoreLine
            (List.foldl restoreLine (⟨[], [], 0, 0⟩ : RestoreState)
              ((ctx.messages.map messageToDict).map LogLine.msg))
            ((sortByKey ctx.checkpoints).map (fun p => LogLine.checkpoint p.1)) := by
      unfold restoreLog rewriteFile
      rw [List.foldl_append, hmsgs]
    have hs1 : List.foldl restoreLine (⟨[], [], 0, 0⟩ : RestoreState)
        ((ctx.messages.map messageToDict).map LogLine.msg)
        = (⟨ctx.messages, [], 0, 0⟩ : RestoreState) := by
      rw [restore_msgs]
      simp only [List.nil_append, hroundtrip]
    have hnodup2 : ((sortByKey ctx.checkpoints).map Prod.fst).Nodup := by
      have hperm : List.Perm ((sortByKey ctx.checkpoints).map Prod.fst)
          (ctx.checkpoints.map Prod.fst) := (sortByKey_perm ctx.checkpoints).map Prod.fst
      exact hperm.nodup_iff.mpr hnodup
    have hs2 := restore_checkpoints (sortByKey ctx.checkpoints)
      (⟨ctx.messages, [], 0, 0⟩ : RestoreState)
      hnodup2 (by intro k _ hmem; simp at hmem)
    rw [hsplit, hs1]
    rcases hs2 with ⟨hm2, hc2⟩
    exact ⟨hm2, by rw [hc2]; simp⟩

/-- Witness for C1 amended: a checkpoint-then-append run replays to
identity, and rewriting the demo context restores its checkpoint id 0 at
the final message index. -/
theorem log_replay_amended_witness :
    (∀ op ∈ [COp.append (Message.user "hi"), COp.checkpoint], op.appendOnly ∧ op.stable) ∧
    ((restoreLog cpDemoCtx.file).messages = cpDemoCtx.messages ∧
      (restoreLog cpDemoCtx.file).checkpoints = cpDemoCtx.checkpoints) ∧
    ((∀ m ∈ cpDemoCtx.messages, MsgStable m) ∧
      (cpDemoCtx.checkpoints.map Prod.fst).Nodup ∧
      ((restoreLog (rewriteFile cpDemoCtx)).messages = cpDemoCtx.messages ∧
        (restoreLog (rewriteFile cpDemoCtx)).checkpoints
          = (sortByKey cpDemoCtx.checkpoints).map (fun p => (p.1, cpDemoCtx.messages.length)))) := by
  have hops : ∀ op ∈ [COp.append (Message.user "hi"), COp.checkpoint],
      op.appendOnly ∧ op.stable := by
    intro op hop
    rcases List.mem_cons.mp hop with rfl | hop2
    · exact ⟨trivial, (by decide : MsgStable (Message.user "hi"))⟩
    · rcases List.mem_cons.mp hop2 with rfl | hop3
      · exact ⟨trivial, trivial⟩
      · cases hop3
  have hstable : ∀ m ∈ cpDemoCtx.messages, MsgStable m := by
    intro m hm
    rcases List.mem_singleton.mp hm with rfl
    decide
  refine ⟨hops, ?_, hstable, by decide, ?_⟩
  · have hrun : runOps emptyContext [COp.append (Message.user "hi"), COp.checkpoint]
        = .ok cpDemoCtx := rfl
    exact log_replay_amended.1 [COp.append (Message.user "hi"), COp.checkpoint]
      cpDemoCtx hops hrun
  · exact log_replay_amended.2 cpDemoCtx hstable (by decide)

end Reagent
